import Mathlib

/-!
Verification development for the LibCST native parser prototype: a shallow
embedding of the whitespace parser (`libcst_tokenize/src/whitespace_parser.rs`),
the whitespace/statement/expression node model and code generation
(`libcst_nodes/src/whitespace.rs`, `libcst_native/src/parser/statement.rs`,
`libcst_native/src/parser/expression.rs`), the grammar semantic actions
(`libcst_native/src/parser/grammar.rs`) and `bol_offset`
(`libcst/src/lib.rs`).

Source text is modelled as `List Char`; every character counts as one byte
(the sources and counterexamples used below are ASCII, where Rust's byte
offsets and char counts coincide).  `fn f(&mut self) -> Result<T>` style
functions are embedded as `Config → State → (Except WhitespaceError T) × State`
so that mutation on error paths stays observable.
-/

namespace LibCST

/-- Characters the tokenizer treats as physical line terminators. -/
def isNlChar (c : Char) : Bool := c == '\n' || c == '\r'

/-- Model of `NEWLINE_RE = \A(\r\n?|\n)`: the anchored newline match, if any. -/
def nlMatch : List Char → Option (List Char)
  | '\r' :: '\n' :: _ => some ['\r', '\n']
  | '\r' :: _ => some ['\r']
  | '\n' :: _ => some ['\n']
  | _ => none

/-- Model of `COMMENT_RE = \A#[^\r\n]*`: the anchored comment match, if any. -/
def commentMatch : List Char → Option (List Char)
  | '#' :: rest => some ('#' :: rest.takeWhile (fun c => ¬ isNlChar c))
  | _ => none

/-- Is `c` one of the plain simple-whitespace characters `[ \f\t]`? -/
def isWsChar (c : Char) : Bool := c == ' ' || c == '\t' || c == '\x0c'

/-- Model of `SIMPLE_WHITESPACE_RE = \A([ \f\t]|\\(\r\n?|\n))*`: the maximal
anchored match of spaces, tabs, formfeeds and backslash-newline sequences
(the backslash alternatives inline `nlMatch`, preferring `\r\n` over `\r`
exactly as the regex alternation does). -/
def simpleWsMatch : List Char → List Char
  | [] => []
  | c :: rest =>
    if isWsChar c then c :: simpleWsMatch rest
    else if c = '\\' then
      match rest with
      | '\r' :: '\n' :: rest2 => '\\' :: '\r' :: '\n' :: simpleWsMatch rest2
      | '\r' :: rest2 => '\\' :: '\r' :: simpleWsMatch rest2
      | '\n' :: rest2 => '\\' :: '\n' :: simpleWsMatch rest2
      | _ => []
    else []

/-- The simple-whitespace language: concatenations of single characters from
`[ \f\t]` and backslash-newline continuation sequences.  A physical newline
may occur only immediately after a backslash. -/
inductive SimpleWsText : List Char → Prop where
  | nil : SimpleWsText []
  | chr {c : Char} {rest : List Char} : isWsChar c = true → SimpleWsText rest →
      SimpleWsText (c :: rest)
  | cont {nl rest : List Char} :
      (nl = ['\n'] ∨ nl = ['\r'] ∨ nl = ['\r', '\n']) → SimpleWsText rest →
      SimpleWsText ('\\' :: (nl ++ rest))

/-- Errors of the whitespace parser (`WhitespaceError`). -/
inductive WhitespaceError where
  | WTF : WhitespaceError
  | InternalError : List Char → WhitespaceError
  | TrailingWhitespaceError : WhitespaceError
  deriving DecidableEq, Repr

/-- Scan state of the whitespace parser (`State` in `whitespace_parser.rs`). -/
structure State where
  line : Nat
  column : Nat
  column_byte : Nat
  absolute_indent : List Char
  is_parenthesized : Bool
  byte_offset : Nat
  deriving DecidableEq, Repr

/-- `State::default()`. -/
def State.default : State :=
  { line := 1, column := 0, column_byte := 0, absolute_indent := [],
    is_parenthesized := false, byte_offset := 0 }

/-- The whitespace parser configuration (`Config` in `whitespace_parser.rs`). -/
structure Config where
  input : List Char
  lines : List (List Char)
  default_newline : List Char
  deriving DecidableEq, Repr

/-- `Config::get_line`. -/
def Config.get_line (cfg : Config) (line_number : Nat) :
    Except WhitespaceError (List Char) :=
  match line_number with
  | 0 => .error (.InternalError "line out of range".data)
  | Nat.succ n =>
    match cfg.lines.get? n with
    | some l => .ok l
    | none => .error (.InternalError "line out of range".data)

/-- `Config::get_line_after_column`. -/
def Config.get_line_after_column (cfg : Config) (line_number column_index : Nat) :
    Except WhitespaceError (List Char) :=
  match cfg.get_line line_number with
  | .error e => .error e
  | .ok l =>
    if column_index ≤ l.length then .ok (l.drop column_index)
    else .error (.InternalError "column out of range".data)

/-- `advance_to_next_line`. -/
def advance_to_next_line (cfg : Config) (s : State) :
    (Except WhitespaceError Unit) × State :=
  match cfg.get_line s.line with
  | .error e => (.error e, s)
  | .ok cur =>
    (.ok (), { s with byte_offset := s.byte_offset + (cur.length - s.column_byte),
                      column := 0, column_byte := 0, line := s.line + 1 })

/-- `advance_this_line`. -/
def advance_this_line (cfg : Config) (s : State) (char_count offset : Nat) :
    (Except WhitespaceError Unit) × State :=
  match cfg.get_line s.line with
  | .error e => (.error e, s)
  | .ok cur =>
    if cur.length < s.column_byte + offset then
      (.error (.InternalError "advanced past end of line".data), s)
    else
      (.ok (), { s with column := s.column + char_count,
                        column_byte := s.column_byte + offset,
                        byte_offset := s.byte_offset + offset })

/-! ## Whitespace node model (`libcst_nodes/src/whitespace.rs`) -/

/-- `Fakeness`. -/
inductive Fakeness where
  | Fake : Fakeness
  | Real : Fakeness
  deriving DecidableEq, Repr

/-- `SimpleWhitespace(&str)`. -/
structure SimpleWhitespace where
  value : List Char
  deriving DecidableEq, Repr

/-- `Comment(&str)`. -/
structure Comment where
  value : List Char
  deriving DecidableEq, Repr

/-- `Newline(Option<&str>, Fakeness)`. -/
structure Newline where
  value : Option (List Char)
  fakeness : Fakeness
  deriving DecidableEq, Repr

/-- `TrailingWhitespace`. -/
structure TrailingWhitespace where
  whitespace : SimpleWhitespace
  comment : Option Comment
  newline : Newline
  deriving DecidableEq, Repr

/-- `TrailingWhitespace::default()`. -/
def TrailingWhitespace.default : TrailingWhitespace :=
  { whitespace := ⟨[]⟩, comment := none, newline := ⟨none, .Real⟩ }

/-- `EmptyLine`. -/
structure EmptyLine where
  indent : Bool
  whitespace : SimpleWhitespace
  comment : Option Comment
  newline : Newline
  indentation : Option (List Char)
  deriving DecidableEq, Repr

/-- `ParenthesizedWhitespace`. -/
structure ParenthesizedWhitespace where
  first_line : TrailingWhitespace
  empty_lines : List EmptyLine
  indent : Bool
  last_line : SimpleWhitespace
  deriving DecidableEq, Repr

/-- `ParenthesizableWhitespace`. -/
inductive ParenthesizableWhitespace where
  | SimpleWhitespace : SimpleWhitespace → ParenthesizableWhitespace
  | ParenthesizedWhitespace : ParenthesizedWhitespace → ParenthesizableWhitespace
  deriving DecidableEq, Repr

/-! ## Whitespace parser (`libcst_tokenize/src/whitespace_parser.rs`) -/

/-- `parse_comment`. -/
def parse_comment (cfg : Config) (s : State) :
    (Except WhitespaceError (Option Comment)) × State :=
  match cfg.get_line_after_column s.line s.column_byte with
  | .error e => (.error e, s)
  | .ok rest =>
    match commentMatch rest with
    | none => (.ok none, s)
    | some m =>
      match advance_this_line cfg s m.length m.length with
      | (.error e, s1) => (.error e, s1)
      | (.ok _, s1) => (.ok (some ⟨m⟩), s1)

/-- `parse_newline`. -/
def parse_newline (cfg : Config) (s : State) :
    (Except WhitespaceError (Option Newline)) × State :=
  match cfg.get_line_after_column s.line s.column_byte with
  | .error e => (.error e, s)
  | .ok rest =>
    match nlMatch rest with
    | some m =>
      match advance_this_line cfg s m.length m.length with
      | (.error e, s1) => (.error e, s1)
      | (.ok _, s1) =>
        match cfg.get_line s1.line with
        | .error e => (.error e, s1)
        | .ok cur =>
          if s1.column_byte ≠ cur.length then
            (.error (.InternalError "newline is not at EOL".data), s1)
          else
            match (if s1.line < cfg.lines.length then advance_to_next_line cfg s1
                   else (.ok (), s1)) with
            | (.error e, s2) => (.error e, s2)
            | (.ok _, s2) =>
              (.ok (some ⟨if m = cfg.default_newline then none else some m, .Real⟩), s2)
    | none =>
      -- If we're at the end of the file but not on BOL, this is the fake
      -- newline inserted by the tokenizer.
      if s.byte_offset = cfg.input.length ∧ s.column_byte ≠ 0 then
        (.ok (some ⟨none, .Fake⟩), s)
      else (.ok none, s)

/-- The per-line regex capture of `parse_simple_whitespace`
(`capture_ws` closure). -/
def capture_ws (cfg : Config) (line col : Nat) : Except WhitespaceError (List Char) :=
  match cfg.get_line_after_column line col with
  | .error e => .error e
  | .ok rest => .ok (simpleWsMatch rest)

/-- The `loop` of `parse_simple_whitespace`: rerun the match on consecutive
physical lines while the matched slice contains a backslash.  Returns the
final (backslash-free) match.  The fuel argument is an embedding artifact;
each iteration strictly increases `s.line`, so `cfg.lines.length + 2` suffices
from any in-range state. -/
def psw_loop (cfg : Config) : Nat → State → (Except WhitespaceError (List Char)) × State
  | 0, s => (.error (.InternalError "fuel exhausted".data), s)
  | Nat.succ fuel, s =>
    match capture_ws cfg s.line s.column_byte with
    | .error e => (.error e, s)
    | .ok m =>
      if '\\' ∈ m then
        match advance_to_next_line cfg s with
        | (.error e, s1) => (.error e, s1)
        | (.ok _, s1) => psw_loop cfg fuel s1
      else (.ok m, s)

/-- Byte slice `input[a..b]` of the source text. -/
def sliceOf (input : List Char) (a b : Nat) : List Char :=
  (input.drop a).take (b - a)

/-- `parse_simple_whitespace`. -/
def parse_simple_whitespace (cfg : Config) (s : State) :
    (Except WhitespaceError SimpleWhitespace) × State :=
  let start_offset := s.byte_offset
  match psw_loop cfg (cfg.lines.length + 2) s with
  | (.error e, s1) => (.error e, s1)
  | (.ok prev_line, s1) =>
    match advance_this_line cfg s1 prev_line.length prev_line.length with
    | (.error e, s2) => (.error e, s2)
    | (.ok _, s2) => (.ok ⟨sliceOf cfg.input start_offset s2.byte_offset⟩, s2)

/-- `parse_indent`. -/
def parse_indent (cfg : Config) (s : State) (override_absolute_indent : Option (List Char)) :
    (Except WhitespaceError Bool) × State :=
  let absolute_indent := override_absolute_indent.getD s.absolute_indent
  if s.column_byte ≠ 0 then
    match cfg.get_line s.line with
    | .error e => (.error e, s)
    | .ok cur =>
      if s.column_byte = cur.length ∧ s.line = cfg.lines.length then (.ok false, s)
      else (.error (.InternalError "column should be 0 when parsing an indent".data), s)
  else
    match cfg.get_line_after_column s.line s.column_byte with
    | .error e => (.error e, s)
    | .ok rest =>
      if absolute_indent.isPrefixOf rest then
        (.ok true, { s with column_byte := s.column_byte + absolute_indent.length,
                            column := s.column + absolute_indent.length,
                            byte_offset := s.byte_offset + absolute_indent.length })
      else (.ok false, s)

/-- `parse_empty_line`.  All sub-parses run on a speculative clone of the
state, committed only when a newline is found; errors of `parse_indent` are
swallowed (`if let Ok(indent) = ...`) while later errors propagate with the
caller's state untouched. -/
def parse_empty_line (cfg : Config) (s : State) (override_absolute_indent : Option (List Char)) :
    (Except WhitespaceError (Option EmptyLine)) × State :=
  match parse_indent cfg s override_absolute_indent with
  | (.error _, _) => (.ok none, s)
  | (.ok indent, s1) =>
    match parse_simple_whitespace cfg s1 with
    | (.error e, _) => (.error e, s)
    | (.ok whitespace, s2) =>
      match parse_comment cfg s2 with
      | (.error e, _) => (.error e, s)
      | (.ok comment, s3) =>
        match parse_newline cfg s3 with
        | (.error e, _) => (.error e, s)
        | (.ok none, _) => (.ok none, s)
        | (.ok (some newline), s4) =>
          (.ok (some { indent := indent, whitespace := whitespace, comment := comment,
                       newline := newline,
                       indentation :=
                         if indent then
                           some (override_absolute_indent.getD s4.absolute_indent)
                         else none }), s4)

/-- `_parse_all_empty_lines`: collect `(state, empty_line)` pairs, stopping
right after a line whose newline is `Fake`.  Fuel is an embedding artifact:
every `Real` line strictly advances `byte_offset` and a `Fake` line stops the
loop, so `cfg.input.length + 2` always suffices for well-formed states. -/
def parse_all_empty_lines_impl (cfg : Config) (override_absolute_indent : Option (List Char)) :
    Nat → State → (Except WhitespaceError (List (State × EmptyLine))) × State
  | 0, s => (.error (.InternalError "fuel exhausted".data), s)
  | Nat.succ fuel, s =>
    match parse_empty_line cfg s override_absolute_indent with
    | (.error e, s1) => (.error e, s1)
    | (.ok none, s1) => (.ok [], s1)
    | (.ok (some el), s1) =>
      match el.newline.fakeness with
      | .Fake => (.ok [(s1, el)], s1)
      | .Real =>
        match parse_all_empty_lines_impl cfg override_absolute_indent fuel s1 with
        | (.error e, s2) => (.error e, s2)
        | (.ok rest, s2) => (.ok ((s1, el) :: rest), s2)

/-- Helper for `trim_to_indented`, acting on the reversed list: drop leading
elements until one is an indented line at the override's indentation level. -/
def trim_drop_not_indented (ov : Option (List Char)) :
    List (State × EmptyLine) → List (State × EmptyLine)
  | [] => []
  | x :: rest =>
    if x.2.indent ∧ x.2.indentation = ov then x :: rest
    else trim_drop_not_indented ov rest

/-- The unwind loop of `parse_empty_lines`: remove elements from the end
(`lines.pop()`) until the last one is an indented line at the override's
indentation level. -/
def trim_to_indented (ov : Option (List Char))
    (ls : List (State × EmptyLine)) : List (State × EmptyLine) :=
  (trim_drop_not_indented ov ls.reverse).reverse

/-- `find_last_line_at`: the fold over the captured lines locating the last
non-blank line indented strictly beyond the (override) indentation level.
The Rust body indexes `raw_line.as_bytes()[indent.len()]`; the out-of-range
panic is modelled as an error. -/
def find_last_line_at (lines : List (State × EmptyLine)) (cfg : Config)
    (override_absolute_indent : Option (List Char)) :
    Except WhitespaceError (Option Nat) :=
  go lines 0 none
where
  go : List (State × EmptyLine) → Nat → Option Nat → Except WhitespaceError (Option Nat)
    | [], _, acc => .ok acc
    | (s, empty_line) :: rest, ind, acc =>
      let line_number := if s.column = 0 then s.line - 1 else s.line
      match cfg.get_line line_number with
      | .error _ => go rest (ind + 1) acc
      | .ok raw_line =>
        if empty_line.comment = none ∧ empty_line.whitespace.value = [] then
          -- this line is empty
          go rest (ind + 1) acc
        else
          let indent := override_absolute_indent.getD s.absolute_indent
          if indent.isPrefixOf raw_line then
            match raw_line.get? indent.length with
            | some c =>
              if c = ' ' ∨ c = '\t' then go rest (ind + 1) (some ind)
              else go rest (ind + 1) acc
            | none => .error (.InternalError "index out of bounds".data)
          else go rest (ind + 1) acc

/-- `parse_empty_lines`. -/
def parse_empty_lines (cfg : Config) (s : State)
    (override_absolute_indent : Option (List Char)) :
    (Except WhitespaceError (List EmptyLine)) × State :=
  match parse_all_empty_lines_impl cfg override_absolute_indent (cfg.input.length + 2) s with
  | (.error e, _) => (.error e, s)
  | (.ok lines0, _) =>
    let lines :=
      if override_absolute_indent.isSome then trim_to_indented override_absolute_indent lines0
      else lines0
    match find_last_line_at lines cfg override_absolute_indent with
    | .error e => (.error e, s)
    | .ok last_droppable_line =>
      let s' := match lines.getLast? with
        | some (final_state, _) => final_state
        | none => s
      (.ok ((lines.drop (match last_droppable_line with
                         | some x => x + 1
                         | none => 0)).map Prod.snd), s')

/-- `parse_optional_trailing_whitespace`. -/
def parse_optional_trailing_whitespace (cfg : Config) (s : State) :
    (Except WhitespaceError (Option TrailingWhitespace)) × State :=
  match parse_simple_whitespace cfg s with
  | (.error e, _) => (.error e, s)
  | (.ok whitespace, s1) =>
    match parse_comment cfg s1 with
    | (.error e, _) => (.error e, s)
    | (.ok comment, s2) =>
      match parse_newline cfg s2 with
      | (.error e, _) => (.error e, s)
      | (.ok (some newline), s3) =>
        (.ok (some { whitespace := whitespace, comment := comment, newline := newline }), s3)
      | (.ok none, _) => (.ok none, s)

/-- `parse_trailing_whitespace`. -/
def parse_trailing_whitespace (cfg : Config) (s : State) :
    (Except WhitespaceError TrailingWhitespace) × State :=
  match parse_optional_trailing_whitespace cfg s with
  | (.ok (some ws), s1) => (.ok ws, s1)
  | (.ok none, s1) => (.error .TrailingWhitespaceError, s1)
  | (.error e, s1) => (.error e, s1)

/-- The empty-line loop of `parse_parenthesized_whitespace` (no fake-newline
break; fuel as in `parse_all_empty_lines_impl`). -/
def ppw_empty_lines (cfg : Config) :
    Nat → State → (Except WhitespaceError (List EmptyLine)) × State
  | 0, s => (.error (.InternalError "fuel exhausted".data), s)
  | Nat.succ fuel, s =>
    match parse_empty_line cfg s none with
    | (.error e, s1) => (.error e, s1)
    | (.ok none, s1) => (.ok [], s1)
    | (.ok (some el), s1) =>
      match ppw_empty_lines cfg fuel s1 with
      | (.error e, s2) => (.error e, s2)
      | (.ok rest, s2) => (.ok (el :: rest), s2)

/-- `parse_parenthesized_whitespace`. -/
def parse_parenthesized_whitespace (cfg : Config) (s : State) :
    (Except WhitespaceError (Option ParenthesizedWhitespace)) × State :=
  match parse_optional_trailing_whitespace cfg s with
  | (.error e, s1) => (.error e, s1)
  | (.ok none, s1) => (.ok none, s1)
  | (.ok (some first_line), s1) =>
    match ppw_empty_lines cfg (cfg.input.length + 2) s1 with
    | (.error e, s2) => (.error e, s2)
    | (.ok empty_lines, s2) =>
      match parse_indent cfg s2 none with
      | (.error e, s3) => (.error e, s3)
      | (.ok indent, s3) =>
        match parse_simple_whitespace cfg s3 with
        | (.error e, s4) => (.error e, s4)
        | (.ok last_line, s4) =>
          (.ok (some { first_line := first_line, empty_lines := empty_lines,
                       indent := indent, last_line := last_line }), s4)

/-- `parse_parenthesizable_whitespace`. -/
def parse_parenthesizable_whitespace (cfg : Config) (s : State) :
    (Except WhitespaceError ParenthesizableWhitespace) × State :=
  if s.is_parenthesized then
    match parse_parenthesized_whitespace cfg s with
    | (.error e, s1) => (.error e, s1)
    | (.ok (some ws), s1) => (.ok (.ParenthesizedWhitespace ws), s1)
    | (.ok none, s1) =>
      match parse_simple_whitespace cfg s1 with
      | (.error e, s2) => (.error e, s2)
      | (.ok ws, s2) => (.ok (.SimpleWhitespace ws), s2)
  else
    match parse_simple_whitespace cfg s with
    | (.error e, s1) => (.error e, s1)
    | (.ok ws, s1) => (.ok (.SimpleWhitespace ws), s1)

/-! ## Code generation state

The concrete `CodegenState` lives in `libcst_nodes/src/codegen.rs`, which is
not part of the sources under review; only its users are.  -/

/-- Modelled from the spec: `CodegenState` (`codegen.rs` is not under `src/`).
"A `CodegenState` carries: output buffer, current indent stack,
`default_newline`, `default_indent`"; `add_token` appends a token to the
buffer, `indent`/`dedent` push and pop the indent stack, `add_indent` emits
the concatenation of the indent stack, and the final output is the
concatenation of the buffer. -/
structure CodegenState where
  tokens : List (List Char)
  indents : List (List Char)
  default_newline : List Char
  default_indent : List Char
  deriving DecidableEq, Repr

/-- Modelled from the spec: append one token to the output buffer. -/
def CodegenState.add_token (st : CodegenState) (tok : List Char) : CodegenState :=
  { st with tokens := st.tokens ++ [tok] }

/-- Modelled from the spec: emit the current total indentation. -/
def CodegenState.add_indent (st : CodegenState) : CodegenState :=
  st.add_token st.indents.flatten

/-- Modelled from the spec: push one block indent onto the stack. -/
def CodegenState.indent (st : CodegenState) (v : List Char) : CodegenState :=
  { st with indents := st.indents ++ [v] }

/-- Modelled from the spec: pop the innermost block indent. -/
def CodegenState.dedent (st : CodegenState) : CodegenState :=
  { st with indents := st.indents.dropLast }

/-- Modelled from the spec: the accumulated output text. -/
def CodegenState.to_string (st : CodegenState) : List Char :=
  st.tokens.flatten

/-- Modelled from the spec: a fresh default `CodegenState` ("the
`default_newline` for output is detected from the first physical line break",
defaulting to `"\n"`; default indent is four spaces). -/
def CodegenState.default : CodegenState :=
  { tokens := [], indents := [], default_newline := ['\n'],
    default_indent := [' ', ' ', ' ', ' '] }

/-! ## Whitespace code generation (`libcst_nodes/src/whitespace.rs`) -/

/-- `impl Codegen for SimpleWhitespace`. -/
def SimpleWhitespace.codegen (w : SimpleWhitespace) (st : CodegenState) : CodegenState :=
  st.add_token w.value

/-- `impl Codegen for Comment`. -/
def Comment.codegen (c : Comment) (st : CodegenState) : CodegenState :=
  st.add_token c.value

/-- `impl Codegen for Newline`. -/
def Newline.codegen (n : Newline) (st : CodegenState) : CodegenState :=
  match n.fakeness with
  | .Fake => st
  | .Real =>
    match n.value with
    | some v => st.add_token v
    | none => st.add_token st.default_newline

/-- `impl Codegen for TrailingWhitespace`. -/
def TrailingWhitespace.codegen (t : TrailingWhitespace) (st : CodegenState) : CodegenState :=
  let st := t.whitespace.codegen st
  let st := match t.comment with
    | some c => c.codegen st
    | none => st
  t.newline.codegen st

/-- `impl Codegen for EmptyLine`. -/
def EmptyLine.codegen (e : EmptyLine) (st : CodegenState) : CodegenState :=
  let st := if e.indent then st.add_indent else st
  let st := e.whitespace.codegen st
  let st := match e.comment with
    | some c => c.codegen st
    | none => st
  e.newline.codegen st

/-- `impl Codegen for ParenthesizedWhitespace`. -/
def ParenthesizedWhitespace.codegen (p : ParenthesizedWhitespace) (st : CodegenState) :
    CodegenState :=
  let st := p.first_line.codegen st
  let st := p.empty_lines.foldl (fun acc l => l.codegen acc) st
  let st := if p.indent then st.add_indent else st
  p.last_line.codegen st

/-- `impl Codegen for ParenthesizableWhitespace`. -/
def ParenthesizableWhitespace.codegen (w : ParenthesizableWhitespace) (st : CodegenState) :
    CodegenState :=
  match w with
  | .SimpleWhitespace s => s.codegen st
  | .ParenthesizedWhitespace p => p.codegen st

/-! ## Expression model (`libcst_native/src/parser/expression.rs`) -/

/-- `LeftParen`. -/
structure LeftParen where
  whitespace_after : ParenthesizableWhitespace
  deriving DecidableEq, Repr

/-- `RightParen`. -/
structure RightParen where
  whitespace_before : ParenthesizableWhitespace
  deriving DecidableEq, Repr

/-- `Name`. -/
structure Name where
  value : List Char
  lpar : List LeftParen
  rpar : List RightParen
  deriving DecidableEq, Repr

/-- `Name::default()`. -/
def Name.default : Name := { value := [], lpar := [], rpar := [] }

/-- `AssignEqual` (`libcst_nodes`' op model; its whitespace fields are all
that the sources use). -/
structure AssignEqual where
  whitespace_before : ParenthesizableWhitespace
  whitespace_after : ParenthesizableWhitespace
  deriving DecidableEq, Repr

/-- `Comma`. -/
structure Comma where
  whitespace_before : ParenthesizableWhitespace
  whitespace_after : ParenthesizableWhitespace
  deriving DecidableEq, Repr

/-- Modelled from the spec: `Semicolon` (the op node module is not under
`src/`; small statements carry an optional semicolon with whitespace on both
sides). -/
structure Semicolon where
  whitespace_before : ParenthesizableWhitespace
  whitespace_after : ParenthesizableWhitespace
  deriving DecidableEq, Repr

mutual
/-- `Expression` (`libcst_native`). -/
inductive Expression where
  | Name : Name → Expression
  | Ellipsis (lpar : List LeftParen) (rpar : List RightParen) : Expression
  | Integer (value : List Char) (lpar : List LeftParen) (rpar : List RightParen) : Expression
  | Float (value : List Char) (lpar : List LeftParen) (rpar : List RightParen) : Expression
  | Imaginary (value : List Char) (lpar : List LeftParen) (rpar : List RightParen) : Expression
  | SimpleString (value : List Char) (lpar : List LeftParen) (rpar : List RightParen) :
      Expression
  | Comparison (left : Expression) (comparisons : List ComparisonTarget)
      (lpar : List LeftParen) (rpar : List RightParen) : Expression
  | UnaryOperation (operator : List Char) (expression : Expression)
      (lpar : List LeftParen) (rpar : List RightParen) : Expression
  | BinaryOperation (left : Expression) (operator : List Char) (right : Expression)
      (lpar : List LeftParen) (rpar : List RightParen) : Expression
  | BooleanOperation (left : Expression) (operator : List Char) (right : Expression)
      (lpar : List LeftParen) (rpar : List RightParen) : Expression
  | Attribute (value : Expression) (attr : Name) (dot : List Char)
      (lpar : List LeftParen) (rpar : List RightParen) : Expression
  | NamedExpr (target : Expression) (value : Expression)
      (lpar : List LeftParen) (rpar : List RightParen)
      (whitespace_before_walrus : ParenthesizableWhitespace)
      (whitespace_after_walrus : ParenthesizableWhitespace) : Expression

/-- `ComparisonTarget`. -/
inductive ComparisonTarget where
  | mk (operator : List Char) (comparator : Expression) : ComparisonTarget
end

/-- Is a `Name` node parenthesis-balanced (`|lpar| == |rpar|`)? -/
def Name.balanced (n : Name) : Bool := n.lpar.length == n.rpar.length

mutual
/-- Parenthesis balance (spec invariant I3 / property P3): every expression
node in the tree, the node itself included, has `|lpar| == |rpar|`. -/
def Expression.balanced : Expression → Bool
  | .Name n => n.balanced
  | .Ellipsis lpar rpar => lpar.length == rpar.length
  | .Integer _ lpar rpar => lpar.length == rpar.length
  | .Float _ lpar rpar => lpar.length == rpar.length
  | .Imaginary _ lpar rpar => lpar.length == rpar.length
  | .SimpleString _ lpar rpar => lpar.length == rpar.length
  | .Comparison left comparisons lpar rpar =>
    lpar.length == rpar.length && left.balanced && ComparisonTarget.allBalanced comparisons
  | .UnaryOperation _ e lpar rpar => lpar.length == rpar.length && e.balanced
  | .BinaryOperation left _ right lpar rpar =>
    lpar.length == rpar.length && left.balanced && right.balanced
  | .BooleanOperation left _ right lpar rpar =>
    lpar.length == rpar.length && left.balanced && right.balanced
  | .Attribute value attr _ lpar rpar =>
    lpar.length == rpar.length && value.balanced && attr.balanced
  | .NamedExpr target value lpar rpar _ _ =>
    lpar.length == rpar.length && target.balanced && value.balanced

/-- Parenthesis balance for a comparison tail. -/
def ComparisonTarget.allBalanced : List ComparisonTarget → Bool
  | [] => true
  | .mk _ comparator :: rest => comparator.balanced && ComparisonTarget.allBalanced rest
end

/-! ## Expression code generation (`libcst_native/src/parser/expression.rs`) -/

/-- `impl Codegen for LeftParen`. -/
def LeftParen.codegen (p : LeftParen) (st : CodegenState) : CodegenState :=
  p.whitespace_after.codegen (st.add_token ['('])

/-- `impl Codegen for RightParen`. -/
def RightParen.codegen (p : RightParen) (st : CodegenState) : CodegenState :=
  (p.whitespace_before.codegen st).add_token [')']

/-- The `lpar` half of `ParenthesizedNode::parenthesize`. -/
def codegenLpars (lpar : List LeftParen) (st : CodegenState) : CodegenState :=
  lpar.foldl (fun acc p => p.codegen acc) st

/-- The `rpar` half of `ParenthesizedNode::parenthesize`. -/
def codegenRpars (rpar : List RightParen) (st : CodegenState) : CodegenState :=
  rpar.foldl (fun acc p => p.codegen acc) st

/-- `impl Codegen for Expression`.  Variants whose Rust code generation is
`panic!("codegen not implemented ...")` are embedded as errors. -/
def Expression.codegen : Expression → CodegenState → Except (List Char) CodegenState
  | .Ellipsis _ _, st => .ok (st.add_token "...".data)
  | .BinaryOperation left operator right lpar rpar, st =>
    match left.codegen (codegenLpars lpar st) with
    | .error e => .error e
    | .ok st =>
      match right.codegen (st.add_token operator) with
      | .error e => .error e
      | .ok st => .ok (codegenRpars rpar st)
  | .Integer value lpar rpar, st =>
    .ok (codegenRpars rpar ((codegenLpars lpar st).add_token value))
  | _, _ => .error "codegen not implemented".data

/-! ## Statement model (`libcst_native/src/parser/statement.rs`) -/

/-- `SmallStatement`. -/
inductive SmallStatement where
  | Pass (semicolon : Option Semicolon) : SmallStatement
  | Break (semicolon : Option Semicolon) : SmallStatement
  | Continue (semicolon : Option Semicolon) : SmallStatement
  | Return (value : Option (List Char)) (whitespace_after_return : SimpleWhitespace)
      (semicolon : Option Semicolon) : SmallStatement
  | Expr (value : Expression) (semicolon : Option Semicolon) : SmallStatement
  | Assert (test : List Char) (msg : Option (List Char)) (comma : Option Comma)
      (whitespace_after_assert : SimpleWhitespace) (semicolon : Option Semicolon) :
      SmallStatement

/-- `SimpleStatementSuite`. -/
structure SimpleStatementSuite where
  body : List SmallStatement
  leading_whitespace : SimpleWhitespace
  trailing_whitespace : TrailingWhitespace

/-- `SimpleStatementLine`. -/
structure SimpleStatementLine where
  body : List SmallStatement
  leading_lines : List EmptyLine
  trailing_whitespace : TrailingWhitespace

/-- `Param` (`libcst_native/src/parser/expression.rs`). -/
structure Param where
  name : Name
  equal : Option AssignEqual
  default : Option Expression
  comma : Option Comma
  star : Option (List Char)
  whitespace_after_star : ParenthesizableWhitespace
  whitespace_after_param : ParenthesizableWhitespace

/-- `Param::default()` (named `defaultParam` because `default` is already the
structure's Rust field for a parameter's default value). -/
def defaultParam : Param :=
  { name := Name.default, equal := none, default := none, comma := none, star := none,
    whitespace_after_param := .SimpleWhitespace ⟨[]⟩,
    whitespace_after_star := .SimpleWhitespace ⟨[]⟩ }

/-- `ParamSlash`. -/
structure ParamSlash where
  comma : Option Comma

/-- `ParamStar`. -/
structure ParamStar where
  comma : Comma

/-- `StarArg`. -/
inductive StarArg where
  | Star : ParamStar → StarArg
  | Param : Param → StarArg

/-- `Parameters`. -/
structure Parameters where
  params : List Param
  star_arg : Option StarArg
  kwonly_params : List Param
  star_kwarg : Option Param
  posonly_params : List Param
  posonly_ind : Option ParamSlash

/-- `Parameters::default()`. -/
def Parameters.default : Parameters :=
  { params := [], star_arg := none, kwonly_params := [], star_kwarg := none,
    posonly_params := [], posonly_ind := none }

/-- `Decorator`. -/
structure Decorator where
  decorator : Name
  leading_lines : List EmptyLine
  whitespace_after_at : SimpleWhitespace
  trailing_whitespace : TrailingWhitespace

mutual
/-- `Statement`. -/
inductive Statement where
  | Simple : SimpleStatementLine → Statement
  | Compound : CompoundStatement → Statement

/-- `CompoundStatement`. -/
inductive CompoundStatement where
  | FunctionDef : FunctionDef → CompoundStatement
  | If : If → CompoundStatement

/-- `Suite`. -/
inductive Suite where
  | IndentedBlock : IndentedBlock → Suite
  | SimpleStatementSuite : SimpleStatementSuite → Suite

/-- `IndentedBlock` (fields: `body`, `header`, `indent`, `footer`). -/
inductive IndentedBlock where
  | mk (body : List Statement) (header : TrailingWhitespace)
      (indent : Option (List Char)) (footer : List EmptyLine) : IndentedBlock

/-- `FunctionDef` (fields: `name`, `params`, `body`, `leading_lines`,
`lines_after_decorators`, `decorators`, `whitespace_after_def`,
`whitespace_after_name`, `whitespace_before_params`,
`whitespace_before_colon`). -/
inductive FunctionDef where
  | mk (name : Name) (params : Parameters) (body : Suite)
      (leading_lines : List EmptyLine) (lines_after_decorators : List EmptyLine)
      (decorators : List Decorator) (whitespace_after_def : SimpleWhitespace)
      (whitespace_after_name : SimpleWhitespace)
      (whitespace_before_params : ParenthesizableWhitespace)
      (whitespace_before_colon : SimpleWhitespace) : FunctionDef

/-- `If` (fields: `test`, `body`, `orelse`, `leading_lines`,
`whitespace_before_test`, `whitespace_after_test`, `is_elif`). -/
inductive If where
  | mk (test : Expression) (body : Suite) (orelse : Option OrElse)
      (leading_lines : List EmptyLine) (whitespace_before_test : SimpleWhitespace)
      (whitespace_after_test : SimpleWhitespace) (is_elif : Bool) : If

/-- `OrElse`. -/
inductive OrElse where
  | Elif : If → OrElse
  | Else : Else → OrElse

/-- `Else` (fields: `body`, `leading_lines`, `whitespace_before_colon`). -/
inductive Else where
  | mk (body : Suite) (leading_lines : List EmptyLine)
      (whitespace_before_colon : SimpleWhitespace) : Else
end

/-- `Module` of the `libcst_native` draft (`Module { body }` in
`grammar.rs`; its own source file is not under `src/`). -/
structure Module where
  body : List Statement

/-- Accessor: `FunctionDef.name`. -/
def FunctionDef.name : FunctionDef → Name
  | .mk n _ _ _ _ _ _ _ _ _ => n

/-- Accessor: `FunctionDef.leading_lines`. -/
def FunctionDef.leading_lines : FunctionDef → List EmptyLine
  | .mk _ _ _ ll _ _ _ _ _ _ => ll

/-- Accessor: `FunctionDef.lines_after_decorators`. -/
def FunctionDef.lines_after_decorators : FunctionDef → List EmptyLine
  | .mk _ _ _ _ lad _ _ _ _ _ => lad

/-- Accessor: `FunctionDef.decorators`. -/
def FunctionDef.decorators : FunctionDef → List Decorator
  | .mk _ _ _ _ _ d _ _ _ _ => d

/-- `FunctionDef::with_decorators`: move the function's `leading_lines` to
`lines_after_decorators` and swap the first decorator's `leading_lines` into
the function's `leading_lines`. -/
def FunctionDef.with_decorators : FunctionDef → List Decorator → FunctionDef
  | .mk n p b leading _ _ w1 w2 w3 w4, decs =>
    match decs with
    | [] => .mk n p b [] leading [] w1 w2 w3 w4
    | d :: rest =>
      .mk n p b d.leading_lines leading ({ d with leading_lines := [] } :: rest) w1 w2 w3 w4

/-! ## Statement code generation (`libcst_native/src/parser/statement.rs`) -/

/-- `impl Codegen for SmallStatement`.  The `todo!()` arms (Return, Assert)
are embedded as errors.  Note the semicolon field is never emitted
(`// TODO: semicolon`). -/
def SmallStatement.codegen : SmallStatement → CodegenState → Except (List Char) CodegenState
  | .Pass _, st => .ok (st.add_token "pass".data)
  | .Break _, st => .ok (st.add_token "break".data)
  | .Continue _, st => .ok (st.add_token "continue".data)
  | .Expr e _, st => e.codegen st
  | _, _ => .error "todo".data

/-- `_simple_statement_codegen`. -/
def simple_statement_codegen_impl (body : List SmallStatement)
    (trailing_whitespace : TrailingWhitespace) (st : CodegenState) :
    Except (List Char) CodegenState :=
  match body.foldlM (fun acc stmt => stmt.codegen acc) st with
  | .error e => .error e
  | .ok st =>
    let st := if body.isEmpty then st.add_token "pass".data else st
    .ok (trailing_whitespace.codegen st)

/-- `impl Codegen for SimpleStatementSuite`. -/
def SimpleStatementSuite.codegen (s : SimpleStatementSuite) (st : CodegenState) :
    Except (List Char) CodegenState :=
  simple_statement_codegen_impl s.body s.trailing_whitespace (s.leading_whitespace.codegen st)

/-- `impl Codegen for SimpleStatementLine`. -/
def SimpleStatementLine.codegen (s : SimpleStatementLine) (st : CodegenState) :
    Except (List Char) CodegenState :=
  let st := s.leading_lines.foldl (fun acc l => l.codegen acc) st
  simple_statement_codegen_impl s.body s.trailing_whitespace st.add_indent

/-- Modelled from the spec: `Module` code generation (the module node's own
source file is not under `src/`; the spec says the module root owns the list
of top-level statements, emitted in source order).  Only `Simple` statements
are needed by the development. -/
def Module.codegen (m : Module) (st : CodegenState) : Except (List Char) CodegenState :=
  m.body.foldlM
    (fun acc stmt =>
      match stmt with
      | Statement.Simple s => s.codegen acc
      | Statement.Compound _ => .error "compound codegen not modelled".data)
    st

/-! ## Grammar semantic actions (`libcst_native/src/parser/grammar.rs`) -/

/-- Token kinds (`TokType`), per the spec's closed set. -/
inductive TokType where
  | Name | Number | String | Op | Keyword | Newline | Indent | Dedent | Async
  | EndMarker | FStringStart | FStringText | FStringEnd
  deriving DecidableEq, Repr

/-- Modelled from the spec: `Token` (the token structure's own source file is
not under `src/`).  "`Token`: `{ kind, string, whitespace_before,
whitespace_after, start_pos, end_pos, relative_indent }`"; the raw whitespace
fields are opaque scan states, and `relative_indent` is set only on `Indent`
tokens.  Positions are omitted (no claim consults them). -/
structure Token where
  kind : TokType
  string : List Char
  whitespace_before : State
  whitespace_after : State
  relative_indent : Option (List Char)
  deriving DecidableEq, Repr

/-- `make_binary_op`.  The Rust function always returns `Ok`; the `Result`
wrapper is the grammar's uniform signature. -/
def make_binary_op (head : Expression) (tail : List (Token × Expression)) : Expression :=
  match tail with
  | [] => head
  | _ =>
    tail.foldl
      (fun expr p =>
        Expression.BinaryOperation expr p.1.string p.2 [] [])
      head

/-- `make_unary_op` (always `Ok`). -/
def make_unary_op (op : Token) (tail : Expression) : Expression :=
  Expression.UnaryOperation op.string tail [] []

/-- `make_number` (always `Ok`). -/
def make_number (num : Token) : Expression :=
  Expression.Integer num.string [] []

/-- The `atom` rule's `name` production:
`Expression::Name(Name { value: n.string, lpar: vec![], rpar: vec![] })`. -/
def atom_name (n : Token) : Expression :=
  Expression.Name { value := n.string, lpar := [], rpar := [] }

/-- The `strings` rule:
`Expression::SimpleString { value, lpar: vec![], rpar: vec![] }`. -/
def atom_string (s : Token) : Expression :=
  Expression.SimpleString s.string [] []

/-- The `atom` rule's `...` production. -/
def atom_ellipsis : Expression :=
  Expression.Ellipsis [] []

/-- `make_decorator`.  Its `trailing_whitespace` is `Default::default()`
(the parse of the newline's whitespace is commented out in the source). -/
def make_decorator (cfg : Config) (at_tok name_tok : Token) :
    Except WhitespaceError Decorator :=
  match parse_empty_lines cfg at_tok.whitespace_before none with
  | (.error e, _) => .error e
  | (.ok leading_lines, _) =>
    match parse_simple_whitespace cfg at_tok.whitespace_after with
    | (.error e, _) => .error e
    | (.ok whitespace_after_at, _) =>
      .ok { decorator := { Name.default with value := name_tok.string },
            leading_lines := leading_lines,
            whitespace_after_at := whitespace_after_at,
            trailing_whitespace := TrailingWhitespace.default }

/-- `make_function_def`. -/
def make_function_def (cfg : Config) (def_tok name_tok open_paren_tok : Token)
    (params : Option Parameters) (_close_paren_tok colon_tok : Token) (body : Suite) :
    Except WhitespaceError FunctionDef :=
  match parse_empty_lines cfg def_tok.whitespace_before none with
  | (.error e, _) => .error e
  | (.ok leading_lines, _) =>
    match parse_simple_whitespace cfg def_tok.whitespace_after with
    | (.error e, _) => .error e
    | (.ok whitespace_after_def, _) =>
      match parse_simple_whitespace cfg name_tok.whitespace_after with
      | (.error e, _) => .error e
      | (.ok whitespace_after_name, _) =>
        match parse_simple_whitespace cfg colon_tok.whitespace_before with
        | (.error e, _) => .error e
        | (.ok whitespace_before_colon, _) =>
          match parse_parenthesizable_whitespace cfg open_paren_tok.whitespace_after with
          | (.error e, _) => .error e
          | (.ok whitespace_before_params, _) =>
            .ok (FunctionDef.mk { Name.default with value := name_tok.string }
              (params.getD Parameters.default) body leading_lines [] []
              whitespace_after_def whitespace_after_name whitespace_before_params
              whitespace_before_colon)

/-! ## `bol_offset` (`libcst/src/lib.rs`) -/

/-- The positions (in order) of `\n` in `source`, as produced by
`source.match_indices('\n')`. -/
def newlineIdxs (source : List Char) : List Nat :=
  (List.range source.length).filter (fun i => source.get? i = some '\n')

/-- `bol_offset(source, n)`: byte offset of the start of 1-indexed line `n`. -/
def bol_offset (source : List Char) (n : Int) : Nat :=
  if n ≤ 1 then 0
  else
    match (newlineIdxs source).get? (n - 2).toNat with
    | some index => index + 1
    | none => source.length

/-! ## Well-formed configurations and scan states

`Config::new` (not under `src/`) splits the input text into physical lines
that keep their terminators; a scan state produced by the tokenizer always
points inside (or just past) that line structure.  The invariants below are
exactly what the whitespace-parser routines maintain. -/

/-- No line-terminator characters occur in `l`. -/
def NoNl (l : List Char) : Prop := ∀ c ∈ l, isNlChar c = false

instance (l : List Char) : Decidable (NoNl l) := by
  unfold NoNl
  infer_instance

/-- `t` is one of the three physical line terminators. -/
def IsTerm (t : List Char) : Prop := t = ['\n'] ∨ t = ['\r'] ∨ t = ['\r', '\n']

/-- A physical line: a terminator-free body followed by an optional
terminator (absent only on a file's last line). -/
def LineShape (l : List Char) : Prop :=
  ∃ body term, l = body ++ term ∧ NoNl body ∧ (IsTerm term ∨ term = [])

/-- A well-formed whitespace-parser configuration. -/
structure WfConfig (cfg : Config) : Prop where
  flatten_eq : cfg.lines.flatten = cfg.input
  shape : ∀ l ∈ cfg.lines, LineShape l
  lines_ne : ∀ l ∈ cfg.lines, l ≠ []

/-- A well-formed scan state for `cfg`: the line index is in range (or one
past the end, at column zero), the column lies within the line, and
`byte_offset` is the byte offset of `(line, column_byte)` in the source. -/
structure WfState (cfg : Config) (s : State) : Prop where
  line_pos : 1 ≤ s.line
  line_le : s.line ≤ cfg.lines.length + 1
  col_le : ∀ cur, cfg.lines.get? (s.line - 1) = some cur → s.column_byte ≤ cur.length
  past_end : s.line = cfg.lines.length + 1 → s.column_byte = 0
  off_eq : s.byte_offset = ((cfg.lines.take (s.line - 1)).flatten).length + s.column_byte

/-- An in-range well-formed state resolves `get_line` to its current line. -/
theorem get_line_ok {cfg : Config} {s : State} (hs : WfState cfg s) {cur : List Char}
    (hcur : cfg.lines.get? (s.line - 1) = some cur) :
    cfg.get_line s.line = .ok cur := by
  obtain ⟨n, hn⟩ : ∃ n, s.line = n + 1 := ⟨s.line - 1, by have := hs.line_pos; omega⟩
  rw [hn] at hcur ⊢
  simp only [Nat.add_sub_cancel] at hcur
  unfold Config.get_line
  rw [List.get?_eq_getElem?] at hcur
  simp [hcur]

/-- An in-range well-formed state resolves `get_line_after_column` to the
remainder of its current line. -/
theorem get_line_after_column_ok {cfg : Config} {s : State} (hs : WfState cfg s)
    {cur : List Char} (hcur : cfg.lines.get? (s.line - 1) = some cur) :
    cfg.get_line_after_column s.line s.column_byte = .ok (cur.drop s.column_byte) := by
  unfold Config.get_line_after_column
  rw [get_line_ok hs hcur]
  simp [hs.col_le cur hcur]

/-- Decomposition of the source at a well-formed state: everything from
`byte_offset` on is the remainder of the current line followed by the
remaining lines. -/
theorem drop_byte_offset_eq {cfg : Config} {s : State} (hc : WfConfig cfg)
    (hs : WfState cfg s) {cur : List Char}
    (hcur : cfg.lines.get? (s.line - 1) = some cur) :
    cfg.input.drop s.byte_offset =
      cur.drop s.column_byte ++ (cfg.lines.drop s.line).flatten := by
  obtain ⟨n, hn⟩ : ∃ n, s.line = n + 1 := ⟨s.line - 1, by have := hs.line_pos; omega⟩
  have hoff := hs.off_eq
  have hcol := hs.col_le cur hcur
  rw [hn] at hcur hoff ⊢
  simp only [Nat.add_sub_cancel] at hcur hoff
  have hlt : n < cfg.lines.length := by
    rw [List.get?_eq_getElem?] at hcur
    exact (List.getElem?_eq_some.mp hcur).1
  have hdrop : cfg.lines.drop n = cur :: cfg.lines.drop (n + 1) := by
    rw [List.drop_eq_getElem_cons hlt]
    rw [List.get?_eq_getElem?] at hcur
    have : cfg.lines[n] = cur := by
      have := List.getElem?_eq_getElem hlt
      rw [this] at hcur
      exact Option.some.inj hcur
    rw [this]
  have hsplit : cfg.input =
      (cfg.lines.take n).flatten ++ (cur ++ (cfg.lines.drop (n + 1)).flatten) := by
    rw [← hc.flatten_eq]
    conv_lhs => rw [← List.take_append_drop n cfg.lines]
    rw [List.flatten_append, hdrop]
    simp
  rw [hsplit, hoff, List.drop_append, List.drop_append_of_le_length hcol]

/-! ## Concrete fixtures used by the counterexample and code-bug theorems -/

/-- The leading whitespace run of a raw source line (its "actual source
indent"). -/
def leading_ws (l : List Char) : List Char := l.takeWhile (fun c => isWsChar c)

/-- `ind` strictly exceeded by `l`'s leading whitespace: `ind` is a proper
prefix of it. -/
def indentExceeds (ind l : List Char) : Prop :=
  ind.isPrefixOf (leading_ws l) ∧ leading_ws l ≠ ind

instance (ind l : List Char) : Decidable (indentExceeds ind l) := by
  unfold indentExceeds
  infer_instance

/-- Source fixture for the empty-line attribution counterexample: a dedent
point followed by a comment indented more than the block (3 spaces), a
comment at the block's level (2 spaces), and a statement line. -/
def cfgC2 : Config :=
  { input := "   # deep\n  # level\nx\n".data,
    lines := ["   # deep\n".data, "  # level\n".data, "x\n".data],
    default_newline := "\n".data }

/-- The scan state after speculatively consuming the first (more indented)
empty line of `cfgC2`. -/
def stC2a : State :=
  { line := 2, column := 0, column_byte := 0, absolute_indent := [],
    is_parenthesized := false, byte_offset := 10 }

/-- The first captured empty line of `cfgC2` (indent strictly exceeding the
override). -/
def elC2a : EmptyLine :=
  { indent := true, whitespace := ⟨[' ']⟩, comment := some ⟨"# deep".data⟩,
    newline := ⟨none, .Real⟩, indentation := some [' ', ' '] }

/-- The scan state after speculatively consuming the second empty line of
`cfgC2`. -/
def stC2b : State :=
  { line := 3, column := 0, column_byte := 0, absolute_indent := [],
    is_parenthesized := false, byte_offset := 20 }

/-- The second captured empty line of `cfgC2` (at the override's level). -/
def elC2b : EmptyLine :=
  { indent := true, whitespace := ⟨[]⟩, comment := some ⟨"# level".data⟩,
    newline := ⟨none, .Real⟩, indentation := some [' ', ' '] }

/-- C2: counterexample.  On `cfgC2` with override `"  "`, the speculative
pass captures both comment lines, and the *first* one is the last (indeed the
only) empty line whose actual source indent strictly exceeds the override, so
the claim predicts the returned footer to be the lines up to and including it
— `[elC2a]` — leaving the rest unconsumed.  The code instead returns exactly
the lines *after* that cut point (`[elC2b]`), with the scan state advanced
past all captured lines. -/
theorem claim_C2_counterexample :
    (parse_all_empty_lines_impl cfgC2 (some [' ', ' ']) (cfgC2.input.length + 2)
        State.default).1 = .ok [(stC2a, elC2a), (stC2b, elC2b)]
    ∧ indentExceeds [' ', ' '] "   # deep\n".data
    ∧ ¬ indentExceeds [' ', ' '] "  # level\n".data
    ∧ parse_empty_lines cfgC2 State.default (some [' ', ' ']) = (.ok [elC2b], stC2b)
    ∧ [elC2b] ≠ [elC2a] := by
  exact ⟨by rfl, by decide, by decide, by rfl, by decide⟩

/-- C4: the Rust `SimpleStatementSuite` code generation at a two-statement
suite: the semicolon separator is never emitted (`// TODO: semicolon`), the
output is `" passpass\n"`, and no `;` occurs in it; an empty suite emits
`pass`. -/
theorem claim_C4_semicolon_not_emitted :
    (SimpleStatementSuite.codegen
        { body := [.Pass none, .Pass none], leading_whitespace := ⟨[' ']⟩,
          trailing_whitespace := TrailingWhitespace.default }
        CodegenState.default).map CodegenState.to_string = .ok " passpass\n".data
    ∧ ';' ∉ " passpass\n".data
    ∧ (SimpleStatementSuite.codegen
        { body := [], leading_whitespace := ⟨[' ']⟩,
          trailing_whitespace := TrailingWhitespace.default }
        CodegenState.default).map CodegenState.to_string = .ok " pass\n".data := by
  exact ⟨by rfl, by decide, by rfl⟩

/-- The module the grammar builds for the source `"pass;pass\n"`: one
`SimpleStatementLine` with two `Pass` small statements (the `;` token's
whitespace is never attached — `// TODO: parse whitespace before and after
semi`), empty leading lines, and a trailing `"\n"` newline. -/
def modulePassSemiPass : Module :=
  { body := [Statement.Simple
      { body := [.Pass none, .Pass none], leading_lines := [],
        trailing_whitespace := TrailingWhitespace.default }] }

/-- C1: round-trip failure.  Code generation of the module parsed from
`"pass;pass\n"` produces `"passpass\n"`, which differs from the input: the
semicolon byte is emitted by no node. -/
theorem claim_C1_roundtrip_fails_on_semicolon :
    (Module.codegen modulePassSemiPass CodegenState.default).map CodegenState.to_string
        = .ok "passpass\n".data
    ∧ "passpass\n".data ≠ "pass;pass\n".data := by
  exact ⟨by rfl, by decide⟩

/-! ## C3: the fake newline at end of file -/

/-- C3: at any well-formed scan state sitting at the end of the input but not
at column zero, `parse_newline` synthesizes `Newline(None, Fake)` without
consuming any bytes (the state is returned unchanged); and code generation of
any `Fake` newline appends nothing to the output buffer. -/
theorem claim_C3_fake_newline :
    (∀ (cfg : Config) (s : State), WfConfig cfg → WfState cfg s →
        s.byte_offset = cfg.input.length → s.column_byte ≠ 0 →
        parse_newline cfg s = (.ok (some ⟨none, .Fake⟩), s))
    ∧ (∀ (v : Option (List Char)) (st : CodegenState),
        Newline.codegen ⟨v, .Fake⟩ st = st) := by
  constructor
  · intro cfg s hc hs hbo hcb
    have hline : s.line ≤ cfg.lines.length := by
      by_contra h
      have h1 : s.line = cfg.lines.length + 1 := by
        have := hs.line_le
        omega
      exact hcb (hs.past_end h1)
    obtain ⟨n, hn⟩ : ∃ n, s.line = n + 1 := ⟨s.line - 1, by have := hs.line_pos; omega⟩
    have hlt : n < cfg.lines.length := by omega
    obtain ⟨cur, hcur⟩ : ∃ cur, cfg.lines.get? (s.line - 1) = some cur := by
      rw [hn]
      simp only [Nat.add_sub_cancel]
      exact ⟨_, List.get?_eq_get hlt⟩
    have hdrop := drop_byte_offset_eq hc hs hcur
    rw [hbo, List.drop_length] at hdrop
    have hnil : cur.drop s.column_byte = [] := (List.append_eq_nil.mp hdrop.symm).1
    unfold parse_newline
    rw [get_line_after_column_ok hs hcur, hnil]
    simp [nlMatch, hbo, hcb]
  · intro v st
    rfl

/-- C3 witness: a one-line file `"a"` with the scan state at its end. -/
theorem claim_C3_fake_newline_witness :
    parse_newline
        { input := "a".data, lines := ["a".data], default_newline := "\n".data }
        { line := 1, column := 1, column_byte := 1, absolute_indent := [],
          is_parenthesized := false, byte_offset := 1 }
      = (.ok (some ⟨none, .Fake⟩),
         { line := 1, column := 1, column_byte := 1, absolute_indent := [],
           is_parenthesized := false, byte_offset := 1 })
    ∧ Newline.codegen ⟨none, .Fake⟩ CodegenState.default = CodegenState.default := by
  constructor
  · refine claim_C3_fake_newline.1 _ _ ⟨by rfl, ?_, by decide⟩ ?_ rfl (by decide)
    · intro l hl
      rw [List.mem_singleton] at hl
      exact ⟨['a'], [], by rw [hl]; rfl, by decide, Or.inr rfl⟩
    · exact ⟨by decide, by decide, by decide, by decide, by decide⟩
  · exact claim_C3_fake_newline.2 none CodegenState.default

/-! ## C9: `bol_offset` -/

/-- Recursive form of the newline positions of a text. -/
def nlIdx : List Char → List Nat
  | [] => []
  | c :: rest =>
    if c = '\n' then 0 :: (nlIdx rest).map (· + 1) else (nlIdx rest).map (· + 1)

theorem nlIdx_cons_nl (rest : List Char) :
    nlIdx ('\n' :: rest) = 0 :: (nlIdx rest).map (· + 1) := by
  simp [nlIdx]

theorem nlIdx_cons_other {c : Char} (hc : ¬ c = '\n') (rest : List Char) :
    nlIdx (c :: rest) = (nlIdx rest).map (· + 1) := by
  simp [nlIdx, hc]

theorem newlineIdxs_eq_nlIdx (text : List Char) : newlineIdxs text = nlIdx text := by
  induction text with
  | nil => rfl
  | cons c rest ih =>
    have hcomp :
        ((fun i => decide ((c :: rest).get? i = some '\n')) ∘ Nat.succ)
          = fun i => decide (rest.get? i = some '\n') := by
      funext i
      simp
    have hsucc : (Nat.succ : Nat → Nat) = (· + 1) := by
      funext x
      rfl
    have hstep : newlineIdxs (c :: rest) =
        (if c = '\n' then [0] else []) ++ (newlineIdxs rest).map (· + 1) := by
      unfold newlineIdxs
      rw [List.length_cons, List.range_succ_eq_map, List.filter_cons, List.filter_map,
        hcomp, hsucc]
      by_cases hc : c = '\n'
      · subst hc
        rw [if_pos (by rfl), if_pos rfl]
        rfl
      · rw [if_neg (by simp [hc]), if_neg hc]
        rfl
    rw [hstep, ih]
    by_cases hc : c = '\n'
    · subst hc
      rw [nlIdx_cons_nl, if_pos rfl]
      rfl
    · rw [nlIdx_cons_other hc, if_neg hc]
      rfl

/-- If `p` is a newline position with exactly `j` newlines before it, then it
is the `j`-th (0-based) entry of the newline index list. -/
theorem nlIdx_get?_of_count (text : List Char) :
    ∀ j p, text.get? p = some '\n' → (text.take p).count '\n' = j →
      (nlIdx text).get? j = some p := by
  induction text with
  | nil =>
    intro j p hget _
    simp at hget
  | cons c rest ih =>
    intro j p hget hcount
    cases p with
    | zero =>
      have hc : c = '\n' := by
        rw [List.get?_cons_zero] at hget
        exact Option.some.inj hget
      subst hc
      have hj : j = 0 := by
        rw [List.take_zero, List.count_nil] at hcount
        omega
      subst hj
      rw [nlIdx_cons_nl]
      rfl
    | succ q =>
      rw [List.get?_cons_succ] at hget
      rw [List.take_succ_cons, List.count_cons] at hcount
      by_cases hc : c = '\n'
      · subst hc
        simp only [beq_self_eq_true, if_pos] at hcount
        obtain ⟨jj, hj⟩ : ∃ jj, j = jj + 1 := ⟨(rest.take q).count '\n', by omega⟩
        have hcq : (rest.take q).count '\n' = jj := by omega
        rw [nlIdx_cons_nl, hj, List.get?_cons_succ, List.get?_map, ih jj q hget hcq]
        rfl
      · have hcq : (rest.take q).count '\n' = j := by
          have : (c == '\n') = false := by
            simp [hc]
          rw [this] at hcount
          simpa using hcount
        rw [nlIdx_cons_other hc, List.get?_map, ih j q hget hcq]
        rfl

theorem nlIdx_length (text : List Char) : (nlIdx text).length = text.count '\n' := by
  induction text with
  | nil => rfl
  | cons c rest ih =>
    by_cases hc : c = '\n' <;> simp [nlIdx, hc, List.count_cons, ih]

/-- C9: `bol_offset text n` returns `0` for `n ≤ 1`; for `n ≥ 2` it returns
`p + 1` where `p` is the position of the `(n-1)`-th newline (the newline with
exactly `n-2` newlines before it) when that newline exists, and `text.length`
when `text` has fewer than `n-1` newlines (line `n` is past the end). -/
theorem claim_C9_bol_offset (text : List Char) (n : Int) :
    (n ≤ 1 → bol_offset text n = 0)
    ∧ (1 < n → ∀ p, text.get? p = some '\n' →
        ((text.take p).count '\n' : Int) = n - 2 → bol_offset text n = p + 1)
    ∧ (1 < n → (text.count '\n' : Int) ≤ n - 2 → bol_offset text n = text.length) := by
  refine ⟨?_, ?_, ?_⟩
  · intro hn
    unfold bol_offset
    rw [if_pos hn]
  · intro hn p hp hcount
    have hj : (text.take p).count '\n' = (n - 2).toNat := by omega
    have hidx : (newlineIdxs text).get? (n - 2).toNat = some p := by
      rw [newlineIdxs_eq_nlIdx]
      exact nlIdx_get?_of_count text _ p hp hj
    unfold bol_offset
    rw [if_neg (by omega), hidx]
  · intro hn hcount
    have hnone : (newlineIdxs text).get? (n - 2).toNat = none := by
      rw [newlineIdxs_eq_nlIdx, List.get?_eq_none]
      rw [nlIdx_length]
      omega
    unfold bol_offset
    rw [if_neg (by omega), hnone]

/-- C9 witness: the repository's own `bol_offset` unit-test cases
(`"hello\nhello"`, lines 1, 2 and the past-end line 3). -/
theorem claim_C9_bol_offset_witness :
    bol_offset "hello\nhello".data 1 = 0
    ∧ bol_offset "hello\nhello".data 2 = 6
    ∧ bol_offset "hello\nhello".data 3 = 11 := by
  refine ⟨(claim_C9_bol_offset "hello\nhello".data 1).1 (by omega), ?_, ?_⟩
  · have h := (claim_C9_bol_offset "hello\nhello".data 2).2.1 (by omega) 5 (by rfl)
      (by decide)
    simpa using h
  · have h := (claim_C9_bol_offset "hello\nhello".data 3).2.2 (by omega) (by decide)
    simpa using h

/-! ## C7: the mandatory trailing whitespace error -/

/-- `get_line` never fails with `TrailingWhitespaceError`. -/
theorem get_line_error_ne_twe {cfg : Config} {n : Nat} {e : WhitespaceError}
    (h : cfg.get_line n = .error e) : e ≠ .TrailingWhitespaceError := by
  intro hc
  subst hc
  unfold Config.get_line at h
  cases n with
  | zero => simp at h
  | succ k => cases hg : cfg.lines[k]? <;> simp [hg] at h

/-- `get_line_after_column` never fails with `TrailingWhitespaceError`. -/
theorem get_line_after_column_error_ne_twe {cfg : Config} {n c : Nat}
    {e : WhitespaceError} (h : cfg.get_line_after_column n c = .error e) :
    e ≠ .TrailingWhitespaceError := by
  intro hc
  subst hc
  unfold Config.get_line_after_column at h
  cases hg : cfg.get_line n with
  | error e2 =>
    simp only [hg] at h
    simp at h
    exact get_line_error_ne_twe hg h
  | ok l =>
    simp only [hg] at h
    by_cases hcle : c ≤ l.length <;> simp [hcle] at h

/-- `advance_this_line` never fails with `TrailingWhitespaceError`. -/
theorem advance_this_line_error_ne_twe {cfg : Config} {s s2 : State} {cc off : Nat}
    {e : WhitespaceError} (h : advance_this_line cfg s cc off = (.error e, s2)) :
    e ≠ .TrailingWhitespaceError := by
  intro hc
  subst hc
  unfold advance_this_line at h
  cases hg : cfg.get_line s.line with
  | error e2 =>
    simp only [hg] at h
    simp at h
    exact get_line_error_ne_twe hg h.1
  | ok cur =>
    simp only [hg] at h
    by_cases hlen : cur.length < s.column_byte + off <;> simp [hlen] at h

/-- `advance_to_next_line` never fails with `TrailingWhitespaceError`. -/
theorem advance_to_next_line_error_ne_twe {cfg : Config} {s s2 : State}
    {e : WhitespaceError} (h : advance_to_next_line cfg s = (.error e, s2)) :
    e ≠ .TrailingWhitespaceError := by
  intro hc
  subst hc
  unfold advance_to_next_line at h
  cases hg : cfg.get_line s.line with
  | error e2 =>
    simp only [hg] at h
    simp at h
    exact get_line_error_ne_twe hg h.1
  | ok cur =>
    simp only [hg] at h
    simp at h

/-- `capture_ws` never fails with `TrailingWhitespaceError`. -/
theorem capture_ws_error_ne_twe {cfg : Config} {l c : Nat} {e : WhitespaceError}
    (h : capture_ws cfg l c = .error e) : e ≠ .TrailingWhitespaceError := by
  intro hc
  subst hc
  unfold capture_ws at h
  cases hg : cfg.get_line_after_column l c with
  | error e2 =>
    simp only [hg] at h
    simp at h
    exact get_line_after_column_error_ne_twe hg h
  | ok rest =>
    simp only [hg] at h
    simp at h

/-- The `parse_simple_whitespace` loop never fails with
`TrailingWhitespaceError`. -/
theorem psw_loop_error_ne_twe {cfg : Config} :
    ∀ (fuel : Nat) (s s2 : State) (e : WhitespaceError),
      psw_loop cfg fuel s = (.error e, s2) → e ≠ .TrailingWhitespaceError := by
  intro fuel
  induction fuel with
  | zero =>
    intro s s2 e h hc
    subst hc
    unfold psw_loop at h
    simp at h
  | succ n ih =>
    intro s s2 e h
    unfold psw_loop at h
    cases hg : capture_ws cfg s.line s.column_byte with
    | error e2 =>
      simp only [hg] at h
      simp at h
      exact h.1 ▸ capture_ws_error_ne_twe hg
    | ok m =>
      simp only [hg] at h
      by_cases hm : '\\' ∈ m
      · rw [if_pos hm] at h
        cases ha : advance_to_next_line cfg s with
        | mk r1 s1 =>
          cases r1 with
          | error e2 =>
            simp only [ha] at h
            simp at h
            exact h.1 ▸ advance_to_next_line_error_ne_twe ha
          | ok u =>
            simp only [ha] at h
            exact ih s1 s2 e h
      · rw [if_neg hm] at h
        simp at h

/-- `parse_simple_whitespace` never fails with `TrailingWhitespaceError`. -/
theorem parse_simple_whitespace_error_ne_twe {cfg : Config} {s s2 : State}
    {e : WhitespaceError} (h : parse_simple_whitespace cfg s = (.error e, s2)) :
    e ≠ .TrailingWhitespaceError := by
  unfold parse_simple_whitespace at h
  cases hl : psw_loop cfg (cfg.lines.length + 2) s with
  | mk r1 s1 =>
    cases r1 with
    | error e2 =>
      simp only [hl] at h
      simp at h
      exact h.1 ▸ psw_loop_error_ne_twe _ s s1 e2 hl
    | ok m =>
      simp only [hl] at h
      cases ha : advance_this_line cfg s1 m.length m.length with
      | mk r2 s3 =>
        cases r2 with
        | error e2 =>
          simp only [ha] at h
          simp at h
          exact h.1 ▸ advance_this_line_error_ne_twe ha
        | ok u =>
          simp only [ha] at h
          simp at h

/-- `parse_comment` never fails with `TrailingWhitespaceError`. -/
theorem parse_comment_error_ne_twe {cfg : Config} {s s2 : State}
    {e : WhitespaceError} (h : parse_comment cfg s = (.error e, s2)) :
    e ≠ .TrailingWhitespaceError := by
  unfold parse_comment at h
  cases hg : cfg.get_line_after_column s.line s.column_byte with
  | error e2 =>
    simp only [hg] at h
    simp at h
    exact h.1 ▸ get_line_after_column_error_ne_twe hg
  | ok rest =>
    simp only [hg] at h
    cases hm : commentMatch rest with
    | none =>
      simp only [hm] at h
      simp at h
    | some m =>
      simp only [hm] at h
      cases ha : advance_this_line cfg s m.length m.length with
      | mk r2 s3 =>
        cases r2 with
        | error e2 =>
          simp only [ha] at h
          simp at h
          exact h.1 ▸ advance_this_line_error_ne_twe ha
        | ok u =>
          simp only [ha] at h
          simp at h

/-- `parse_newline` never fails with `TrailingWhitespaceError`. -/
theorem parse_newline_error_ne_twe {cfg : Config} {s s2 : State}
    {e : WhitespaceError} (h : parse_newline cfg s = (.error e, s2)) :
    e ≠ .TrailingWhitespaceError := by
  unfold parse_newline at h
  cases hg : cfg.get_line_after_column s.line s.column_byte with
  | error e2 =>
    simp only [hg] at h
    simp at h
    exact h.1 ▸ get_line_after_column_error_ne_twe hg
  | ok rest =>
    simp only [hg] at h
    cases hm : nlMatch rest with
    | none =>
      simp only [hm] at h
      by_cases hcond : s.byte_offset = cfg.input.length ∧ s.column_byte ≠ 0 <;>
        simp [hcond] at h
    | some m =>
      simp only [hm] at h
      cases ha : advance_this_line cfg s m.length m.length with
      | mk r2 s3 =>
        cases r2 with
        | error e2 =>
          simp only [ha] at h
          simp at h
          exact h.1 ▸ advance_this_line_error_ne_twe ha
        | ok u =>
          simp only [ha] at h
          cases hg2 : cfg.get_line s3.line with
          | error e2 =>
            simp only [hg2] at h
            simp at h
            exact h.1 ▸ get_line_error_ne_twe hg2
          | ok cur =>
            simp only [hg2] at h
            by_cases heol : s3.column_byte ≠ cur.length
            · rw [if_pos heol] at h
              simp at h
              intro hc
              rw [hc] at h
              simp at h
            · rw [if_neg heol] at h
              by_cases hlast : s3.line < cfg.lines.length
              · rw [if_pos hlast] at h
                cases ha2 : advance_to_next_line cfg s3 with
                | mk r3 s4 =>
                  cases r3 with
                  | error e2 =>
                    simp only [ha2] at h
                    simp at h
                    exact h.1 ▸ advance_to_next_line_error_ne_twe ha2
                  | ok u2 =>
                    simp only [ha2] at h
                    simp at h
              · rw [if_neg hlast] at h
                simp at h

/-- C7: `parse_trailing_whitespace` fails with `TrailingWhitespaceError`
exactly when the optional simple whitespace and optional comment parse
cleanly but no newline — real or fake — follows them; and in that error case
the caller's scan state is returned exactly as it was on entry (the
speculative clone is committed only on success). -/
theorem claim_C7_trailing_whitespace_error (cfg : Config) (s : State) :
    ((parse_trailing_whitespace cfg s).1 = .error .TrailingWhitespaceError ↔
      ∃ ws s1 cm s2, parse_simple_whitespace cfg s = (.ok ws, s1) ∧
        parse_comment cfg s1 = (.ok cm, s2) ∧ (parse_newline cfg s2).1 = .ok none)
    ∧ ((parse_trailing_whitespace cfg s).1 = .error .TrailingWhitespaceError →
        (parse_trailing_whitespace cfg s).2 = s) := by
  cases hws : parse_simple_whitespace cfg s with
  | mk r1 s1 =>
  cases r1 with
  | error e =>
    have hne := parse_simple_whitespace_error_ne_twe hws
    have hpt : parse_trailing_whitespace cfg s = (.error e, s) := by
      unfold parse_trailing_whitespace parse_optional_trailing_whitespace
      simp only [hws]
    rw [hpt]
    constructor
    · constructor
      · intro habs
        exact absurd (Except.error.inj habs) hne
      · rintro ⟨ws, s1', cm, s2', h1, -, -⟩
        simp at h1
    · intro habs
      exact absurd (Except.error.inj habs) hne
  | ok ws =>
  cases hcm : parse_comment cfg s1 with
  | mk r2 s2 =>
  cases r2 with
  | error e =>
    have hne := parse_comment_error_ne_twe hcm
    have hpt : parse_trailing_whitespace cfg s = (.error e, s) := by
      unfold parse_trailing_whitespace parse_optional_trailing_whitespace
      simp only [hws, hcm]
    rw [hpt]
    constructor
    · constructor
      · intro habs
        exact absurd (Except.error.inj habs) hne
      · rintro ⟨ws', s1', cm, s2', h1, h2, -⟩
        injection h1 with h1a h1b
        injection h1a with h1a
        subst h1a
        subst h1b
        rw [hcm] at h2
        simp at h2
    · intro habs
      exact absurd (Except.error.inj habs) hne
  | ok cm =>
  cases hnl : parse_newline cfg s2 with
  | mk r3 s3 =>
  cases r3 with
  | error e =>
    have hne := parse_newline_error_ne_twe hnl
    have hpt : parse_trailing_whitespace cfg s = (.error e, s) := by
      unfold parse_trailing_whitespace parse_optional_trailing_whitespace
      simp only [hws, hcm, hnl]
    rw [hpt]
    constructor
    · constructor
      · intro habs
        exact absurd (Except.error.inj habs) hne
      · rintro ⟨ws', s1', cm', s2', h1, h2, h3⟩
        injection h1 with h1a h1b
        injection h1a with h1a
        subst h1a
        subst h1b
        rw [hcm] at h2
        injection h2 with h2a h2b
        injection h2a with h2a
        subst h2a
        subst h2b
        rw [hnl] at h3
        simp at h3
    · intro habs
      exact absurd (Except.error.inj habs) hne
  | ok onl =>
  cases onl with
  | some nl =>
    have hpt : parse_trailing_whitespace cfg s =
        (.ok { whitespace := ws, comment := cm, newline := nl }, s3) := by
      unfold parse_trailing_whitespace parse_optional_trailing_whitespace
      simp only [hws, hcm, hnl]
    rw [hpt]
    constructor
    · constructor
      · intro habs
        simp at habs
      · rintro ⟨ws', s1', cm', s2', h1, h2, h3⟩
        injection h1 with h1a h1b
        injection h1a with h1a
        subst h1a
        subst h1b
        rw [hcm] at h2
        injection h2 with h2a h2b
        injection h2a with h2a
        subst h2a
        subst h2b
        rw [hnl] at h3
        simp at h3
    · intro habs
      simp at habs
  | none =>
    have hpt : parse_trailing_whitespace cfg s = (.error .TrailingWhitespaceError, s) := by
      unfold parse_trailing_whitespace parse_optional_trailing_whitespace
      simp only [hws, hcm, hnl]
    rw [hpt]
    refine ⟨⟨fun _ => ⟨ws, s1, cm, s2, rfl, hcm, by rw [hnl]⟩, fun _ => rfl⟩, fun _ => rfl⟩

/-- C7 witness: on the newline-less line `"abc"` from column zero, no newline
follows the (empty) simple whitespace and (absent) comment, so the parse
fails with `TrailingWhitespaceError` and the scan state is untouched. -/
theorem claim_C7_trailing_whitespace_error_witness :
    (parse_trailing_whitespace
        { input := "abc".data, lines := ["abc".data], default_newline := "\n".data }
        State.default).1 = .error .TrailingWhitespaceError
    ∧ (parse_trailing_whitespace
        { input := "abc".data, lines := ["abc".data], default_newline := "\n".data }
        State.default).2 = State.default := by
  have h := claim_C7_trailing_whitespace_error
    { input := "abc".data, lines := ["abc".data], default_newline := "\n".data }
    State.default
  have h1 : (parse_trailing_whitespace
      { input := "abc".data, lines := ["abc".data], default_newline := "\n".data }
      State.default).1 = .error .TrailingWhitespaceError := by
    apply h.1.mpr
    exact ⟨⟨[]⟩, State.default, none, State.default, by rfl, by rfl, by rfl⟩
  exact ⟨h1, h.2 h1⟩

/-! ## C8: parenthesis balance -/

/-- The left fold of `make_binary_op` preserves recursive parenthesis
balance. -/
theorem make_binary_op_foldl_balanced (tail : List (Token × Expression)) :
    ∀ head : Expression, head.balanced = true →
      (∀ p ∈ tail, (p.2).balanced = true) →
      (tail.foldl
        (fun expr p => Expression.BinaryOperation expr p.1.string p.2 [] []) head).balanced
        = true := by
  induction tail with
  | nil =>
    intro head hh _
    exact hh
  | cons p rest ih =>
    intro head hh htail
    rw [List.foldl_cons]
    apply ih
    · have hp : (p.2).balanced = true := htail p (by simp)
      simp [Expression.balanced, hh, hp]
    · intro q hq
      exact htail q (by simp [hq])

/-- C8: the balance invariant `|lpar| == |rpar|` (recursively, at every
expression node of the tree) holds for every expression the grammar's atom
rule builds and is preserved by `make_binary_op` and `make_unary_op` and
established by `make_number`. -/
theorem claim_C8_paren_balance :
    (∀ (head : Expression) (tail : List (Token × Expression)),
      head.balanced = true → (∀ p ∈ tail, (p.2).balanced = true) →
        (make_binary_op head tail).balanced = true)
    ∧ (∀ (op : Token) (a : Expression), a.balanced = true →
        (make_unary_op op a).balanced = true)
    ∧ (∀ num : Token, (make_number num).balanced = true)
    ∧ (∀ n : Token, (atom_name n).balanced = true)
    ∧ (∀ st : Token, (atom_string st).balanced = true)
    ∧ atom_ellipsis.balanced = true := by
  refine ⟨?_, ?_, ?_, ?_, ?_, ?_⟩
  · intro head tail hh htail
    unfold make_binary_op
    cases tail with
    | nil => exact hh
    | cons p rest => exact make_binary_op_foldl_balanced (p :: rest) head hh htail
  · intro op a ha
    simp [make_unary_op, Expression.balanced, ha]
  · intro num
    simp [make_number, Expression.balanced]
  · intro n
    simp [atom_name, Expression.balanced, Name.balanced]
  · intro st
    simp [atom_string, Expression.balanced]
  · simp [atom_ellipsis, Expression.balanced]

/-- C8 witness: folding `1 + 2` (one tail element) out of balanced atoms
yields a balanced `BinaryOperation`. -/
theorem claim_C8_paren_balance_witness :
    (make_binary_op (make_number
        { kind := .Number, string := ['1'], whitespace_before := State.default,
          whitespace_after := State.default, relative_indent := none })
      [({ kind := .Op, string := ['+'], whitespace_before := State.default,
          whitespace_after := State.default, relative_indent := none },
        make_number
        { kind := .Number, string := ['2'], whitespace_before := State.default,
          whitespace_after := State.default, relative_indent := none })]).balanced
      = true := by
  apply claim_C8_paren_balance.1
  · exact claim_C8_paren_balance.2.2.1 _
  · intro p hp
    rw [List.mem_singleton] at hp
    rw [hp]
    exact claim_C8_paren_balance.2.2.1 _

/-! ## Scan-state advancement lemmas -/

/-- Characterization of a successful `advance_this_line`. -/
theorem advance_this_line_ok {cfg : Config} {s : State} {cc off : Nat} {u : Unit}
    {s' : State} (h : advance_this_line cfg s cc off = (.ok u, s')) :
    ∃ cur, cfg.get_line s.line = .ok cur ∧ s.column_byte + off ≤ cur.length ∧
      s' = { s with
             column := s.column + cc
             column_byte := s.column_byte + off
             byte_offset := s.byte_offset + off } := by
  unfold advance_this_line at h
  cases hg : cfg.get_line s.line with
  | error e =>
    simp only [hg] at h
    simp at h
  | ok cur =>
    simp only [hg] at h
    by_cases hlen : cur.length < s.column_byte + off
    · rw [if_pos hlen] at h
      simp at h
    · rw [if_neg hlen] at h
      simp only [Prod.mk.injEq] at h
      exact ⟨cur, rfl, by omega, h.2.symm⟩

/-- Characterization of a successful `advance_to_next_line`. -/
theorem advance_to_next_line_ok {cfg : Config} {s : State} {u : Unit} {s' : State}
    (h : advance_to_next_line cfg s = (.ok u, s')) :
    ∃ cur, cfg.get_line s.line = .ok cur ∧
      s' = { s with
             byte_offset := s.byte_offset + (cur.length - s.column_byte)
             column := 0
             column_byte := 0
             line := s.line + 1 } := by
  unfold advance_to_next_line at h
  cases hg : cfg.get_line s.line with
  | error e =>
    simp only [hg] at h
    simp at h
  | ok cur =>
    simp only [hg] at h
    simp only [Prod.mk.injEq] at h
    exact ⟨cur, rfl, h.2.symm⟩

/-- A successful `parse_indent` never moves the byte offset backwards. -/
theorem parse_indent_byte_mono {cfg : Config} {s : State}
    {ov : Option (List Char)} {b : Bool} {s' : State}
    (h : parse_indent cfg s ov = (.ok b, s')) : s.byte_offset ≤ s'.byte_offset := by
  unfold parse_indent at h
  by_cases hc : s.column_byte ≠ 0
  · rw [if_pos hc] at h
    cases hg : cfg.get_line s.line with
    | error e =>
      simp only [hg] at h
      simp at h
    | ok cur =>
      simp only [hg] at h
      by_cases hcond : s.column_byte = cur.length ∧ s.line = cfg.lines.length
      · rw [if_pos hcond] at h
        simp only [Prod.mk.injEq] at h
        rw [← h.2]
      · rw [if_neg hcond] at h
        simp at h
  · rw [if_neg hc] at h
    cases hg : cfg.get_line_after_column s.line s.column_byte with
    | error e =>
      simp only [hg] at h
      simp at h
    | ok rest =>
      simp only [hg] at h
      by_cases hpre : (ov.getD s.absolute_indent).isPrefixOf rest
      · rw [if_pos hpre] at h
        simp only [Prod.mk.injEq] at h
        rw [← h.2]
        simp
      · rw [if_neg hpre] at h
        simp only [Prod.mk.injEq] at h
        rw [← h.2]

/-- The `parse_simple_whitespace` loop never moves the byte offset
backwards. -/
theorem psw_loop_byte_mono {cfg : Config} :
    ∀ (fuel : Nat) (s : State) (m : List Char) (s' : State),
      psw_loop cfg fuel s = (.ok m, s') → s.byte_offset ≤ s'.byte_offset := by
  intro fuel
  induction fuel with
  | zero =>
    intro s m s' h
    unfold psw_loop at h
    simp at h
  | succ n ih =>
    intro s m s' h
    unfold psw_loop at h
    cases hg : capture_ws cfg s.line s.column_byte with
    | error e =>
      simp only [hg] at h
      simp at h
    | ok m0 =>
      simp only [hg] at h
      by_cases hm : '\\' ∈ m0
      · rw [if_pos hm] at h
        cases ha : advance_to_next_line cfg s with
        | mk r1 s1 =>
          cases r1 with
          | error e =>
            simp only [ha] at h
            simp at h
          | ok u =>
            simp only [ha] at h
            obtain ⟨cur, -, hs1⟩ := advance_to_next_line_ok ha
            have h1 : s.byte_offset ≤ s1.byte_offset := by
              rw [hs1]
              simp
            exact le_trans h1 (ih s1 m s' h)
      · rw [if_neg hm] at h
        simp only [Prod.mk.injEq] at h
        rw [← h.2]

/-- A successful `parse_simple_whitespace` never moves the byte offset
backwards. -/
theorem parse_simple_whitespace_byte_mono {cfg : Config} {s : State}
    {w : SimpleWhitespace} {s' : State}
    (h : parse_simple_whitespace cfg s = (.ok w, s')) :
    s.byte_offset ≤ s'.byte_offset := by
  unfold parse_simple_whitespace at h
  cases hl : psw_loop cfg (cfg.lines.length + 2) s with
  | mk r1 s1 =>
    cases r1 with
    | error e =>
      simp only [hl] at h
      simp at h
    | ok m =>
      simp only [hl] at h
      cases ha : advance_this_line cfg s1 m.length m.length with
      | mk r2 s2 =>
        cases r2 with
        | error e =>
          simp only [ha] at h
          simp at h
        | ok u =>
          simp only [ha] at h
          simp only [Prod.mk.injEq] at h
          obtain ⟨cur, -, -, hs2⟩ := advance_this_line_ok ha
          have h2 : s1.byte_offset ≤ s2.byte_offset := by
            rw [hs2]
            simp
          rw [← h.2]
          exact le_trans (psw_loop_byte_mono _ s m s1 hl) h2

/-- A successful `parse_comment` never moves the byte offset backwards. -/
theorem parse_comment_byte_mono {cfg : Config} {s : State} {c : Option Comment}
    {s' : State} (h : parse_comment cfg s = (.ok c, s')) :
    s.byte_offset ≤ s'.byte_offset := by
  unfold parse_comment at h
  cases hg : cfg.get_line_after_column s.line s.column_byte with
  | error e =>
    simp only [hg] at h
    simp at h
  | ok rest =>
    simp only [hg] at h
    cases hm : commentMatch rest with
    | none =>
      simp only [hm] at h
      simp only [Prod.mk.injEq] at h
      rw [← h.2]
    | some m =>
      simp only [hm] at h
      cases ha : advance_this_line cfg s m.length m.length with
      | mk r2 s2 =>
        cases r2 with
        | error e =>
          simp only [ha] at h
          simp at h
        | ok u =>
          simp only [ha] at h
          simp only [Prod.mk.injEq] at h
          obtain ⟨cur, -, -, hs2⟩ := advance_this_line_ok ha
          rw [← h.2, hs2]
          simp

/-- A newline match is one of the three terminators (so it is nonempty). -/
theorem nlMatch_cases {l m : List Char} (h : nlMatch l = some m) :
    m = ['\r', '\n'] ∨ m = ['\r'] ∨ m = ['\n'] := by
  unfold nlMatch at h
  split at h
  · exact Or.inl (Option.some.inj h).symm
  · exact Or.inr (Or.inl (Option.some.inj h).symm)
  · exact Or.inr (Or.inr (Option.some.inj h).symm)
  · simp at h

/-- A successful `parse_newline`: a `Real` newline strictly advances the byte
offset; a `Fake` newline leaves the state untouched and occurs only at the
end of the input. -/
theorem parse_newline_advance {cfg : Config} {s : State} {nl : Newline} {s' : State}
    (h : parse_newline cfg s = (.ok (some nl), s')) :
    (nl.fakeness = .Real → s.byte_offset < s'.byte_offset)
    ∧ (nl.fakeness = .Fake → s' = s ∧ s'.byte_offset = cfg.input.length) := by
  unfold parse_newline at h
  cases hg : cfg.get_line_after_column s.line s.column_byte with
  | error e =>
    simp only [hg] at h
    simp at h
  | ok rest =>
    simp only [hg] at h
    cases hm : nlMatch rest with
    | none =>
      simp only [hm] at h
      by_cases hcond : s.byte_offset = cfg.input.length ∧ s.column_byte ≠ 0
      · rw [if_pos hcond] at h
        simp only [Prod.mk.injEq] at h
        obtain ⟨h1, h2⟩ := h
        have hnl : nl = ⟨none, .Fake⟩ := (Option.some.inj (Except.ok.inj h1)).symm
        subst hnl
        subst h2
        exact ⟨by intro hr; simp at hr, fun _ => ⟨rfl, hcond.1⟩⟩
      · rw [if_neg hcond] at h
        simp at h
    | some m =>
      simp only [hm] at h
      cases ha : advance_this_line cfg s m.length m.length with
      | mk r2 s2 =>
        cases r2 with
        | error e =>
          simp only [ha] at h
          simp at h
        | ok u =>
          simp only [ha] at h
          cases hg2 : cfg.get_line s2.line with
          | error e =>
            simp only [hg2] at h
            simp at h
          | ok cur =>
            simp only [hg2] at h
            by_cases heol : s2.column_byte ≠ cur.length
            · rw [if_pos heol] at h
              simp at h
            · rw [if_neg heol] at h
              have hm1 : 1 ≤ m.length := by
                rcases nlMatch_cases hm with h1 | h1 | h1 <;> rw [h1] <;> simp
              obtain ⟨cur0, -, -, hs2⟩ := advance_this_line_ok ha
              have hlt : s.byte_offset < s2.byte_offset := by
                rw [hs2]
                simp
                omega
              by_cases hlast : s2.line < cfg.lines.length
              · rw [if_pos hlast] at h
                cases ha2 : advance_to_next_line cfg s2 with
                | mk r3 s3 =>
                  cases r3 with
                  | error e =>
                    simp only [ha2] at h
                    simp at h
                  | ok u2 =>
                    simp only [ha2] at h
                    simp only [Prod.mk.injEq] at h
                    obtain ⟨h1, h2⟩ := h
                    have hnl : nl = ⟨if m = cfg.default_newline then none else some m,
                        .Real⟩ := (Option.some.inj (Except.ok.inj h1)).symm
                    obtain ⟨cur2, -, hs3⟩ := advance_to_next_line_ok ha2
                    constructor
                    · intro _
                      rw [← h2, hs3]
                      simp
                      omega
                    · intro hf
                      rw [hnl] at hf
                      simp at hf
              · rw [if_neg hlast] at h
                simp only [Prod.mk.injEq] at h
                obtain ⟨h1, h2⟩ := h
                have hnl : nl = ⟨if m = cfg.default_newline then none else some m,
                    .Real⟩ := (Option.some.inj (Except.ok.inj h1)).symm
                constructor
                · intro _
                  rw [← h2]
                  exact hlt
                · intro hf
                  rw [hnl] at hf
                  simp at hf

/-- A successfully captured empty line: a `Real` newline strictly advances
the byte offset, and a `Fake` newline puts the committed state at the end of
the input. -/
theorem parse_empty_line_advance {cfg : Config} {s : State} {ov : Option (List Char)}
    {el : EmptyLine} {s' : State}
    (h : parse_empty_line cfg s ov = (.ok (some el), s')) :
    (el.newline.fakeness = .Real → s.byte_offset < s'.byte_offset)
    ∧ (el.newline.fakeness = .Fake → s'.byte_offset = cfg.input.length) := by
  unfold parse_empty_line at h
  cases hin : parse_indent cfg s ov with
  | mk r1 s1 =>
  cases r1 with
  | error e =>
    simp only [hin] at h
    simp at h
  | ok indent =>
  simp only [hin] at h
  cases hws : parse_simple_whitespace cfg s1 with
  | mk r2 s2 =>
  cases r2 with
  | error e =>
    simp only [hws] at h
    simp at h
  | ok whitespace =>
  simp only [hws] at h
  cases hcm : parse_comment cfg s2 with
  | mk r3 s3 =>
  cases r3 with
  | error e =>
    simp only [hcm] at h
    simp at h
  | ok comment =>
  simp only [hcm] at h
  cases hnl : parse_newline cfg s3 with
  | mk r4 s4 =>
  cases r4 with
  | error e =>
    simp only [hnl] at h
    simp at h
  | ok onl =>
  cases onl with
  | none =>
    simp only [hnl] at h
    simp at h
  | some newline =>
  simp only [hnl] at h
  simp only [Prod.mk.injEq] at h
  obtain ⟨h1, h2⟩ := h
  have hel : el = { indent := indent
                    whitespace := whitespace
                    comment := comment
                    newline := newline
                    indentation :=
                      if indent then some (ov.getD s4.absolute_indent) else none } :=
    (Option.some.inj (Except.ok.inj h1)).symm
  have hmono : s.byte_offset ≤ s3.byte_offset :=
    le_trans (parse_indent_byte_mono hin)
      (le_trans (parse_simple_whitespace_byte_mono hws) (parse_comment_byte_mono hcm))
  have hadv := parse_newline_advance hnl
  constructor
  · intro hr
    rw [hel] at hr
    have := hadv.1 hr
    rw [← h2]
    omega
  · intro hf
    rw [hel] at hf
    obtain ⟨-, hlen⟩ := hadv.2 hf
    rw [← h2]
    exact hlen

/-- The chained advancement property of the captured `(state, line)` pairs of
`_parse_all_empty_lines`: starting from `prev`, every `Real` line strictly
advances the byte offset and every `Fake` line sits at the end of input. -/
def Advancing (cfg : Config) : State → List (State × EmptyLine) → Prop
  | _, [] => True
  | prev, x :: rest =>
    (x.2.newline.fakeness = .Real → prev.byte_offset < x.1.byte_offset)
    ∧ (x.2.newline.fakeness = .Fake → x.1.byte_offset = cfg.input.length)
    ∧ Advancing cfg x.1 rest

/-- C10: the empty-line scanning loop terminates because every captured
empty line with a `Real` newline strictly advances the scan state's byte
offset, a captured `Fake`-newline line (which sits at the end of the input)
immediately breaks the loop — so every captured line except possibly the
last is `Real` — and consequently at most one `Fake` line is ever
captured. -/
theorem claim_C10_empty_line_loop (cfg : Config) (ov : Option (List Char)) :
    ∀ (fuel : Nat) (s : State) (L : List (State × EmptyLine)) (s' : State),
      parse_all_empty_lines_impl cfg ov fuel s = (.ok L, s') →
      Advancing cfg s L
      ∧ (∀ x ∈ L.dropLast, x.2.newline.fakeness = .Real)
      ∧ L.countP (fun x => x.2.newline.fakeness == .Fake) ≤ 1 := by
  intro fuel
  induction fuel with
  | zero =>
    intro s L s' h
    unfold parse_all_empty_lines_impl at h
    simp at h
  | succ n ih =>
    intro s L s' h
    unfold parse_all_empty_lines_impl at h
    cases hel : parse_empty_line cfg s ov with
    | mk r1 s1 =>
    cases r1 with
    | error e =>
      simp only [hel] at h
      simp at h
    | ok oel =>
    cases oel with
    | none =>
      simp only [hel] at h
      simp only [Prod.mk.injEq] at h
      obtain ⟨h1, -⟩ := h
      have hL : L = [] := (Except.ok.inj h1).symm
      subst hL
      exact ⟨trivial, by simp, by simp⟩
    | some el =>
      simp only [hel] at h
      cases hf : el.newline.fakeness with
      | Fake =>
        rw [hf] at h
        simp only [Prod.mk.injEq] at h
        obtain ⟨h1, -⟩ := h
        have hL : L = [(s1, el)] := (Except.ok.inj h1).symm
        subst hL
        refine ⟨⟨?_, ?_, trivial⟩, ?_, ?_⟩
        · intro hr
          rw [hf] at hr
          simp at hr
        · intro _
          exact (parse_empty_line_advance hel).2 hf
        · simp
        · simp [List.countP_cons, hf]
      | Real =>
        rw [hf] at h
        cases hrec : parse_all_empty_lines_impl cfg ov n s1 with
        | mk r2 s2 =>
        cases r2 with
        | error e =>
          simp only [hrec] at h
          simp at h
        | ok rest =>
          simp only [hrec] at h
          simp only [Prod.mk.injEq] at h
          obtain ⟨h1, -⟩ := h
          have hL : L = (s1, el) :: rest := (Except.ok.inj h1).symm
          subst hL
          obtain ⟨adv, dl, cnt⟩ := ih s1 rest s2 hrec
          refine ⟨⟨?_, ?_, adv⟩, ?_, ?_⟩
          · intro _
            exact (parse_empty_line_advance hel).1 hf
          · intro hfk
            rw [hf] at hfk
            simp at hfk
          · intro x hx
            cases rest with
            | nil => simp at hx
            | cons b bs =>
              rw [show ((s1, el) :: b :: bs).dropLast = (s1, el) :: (b :: bs).dropLast
                from rfl] at hx
              rcases List.mem_cons.mp hx with h1 | h1
              · rw [h1]
                exact hf
              · exact dl x h1
          · rw [List.countP_cons]
            simp [hf]
            omega

/-- C10 witness: on `cfgC2` from the initial state (with the `"  "`
override), the loop captures two `Real` lines; both advancement properties
and the fake-line count bound hold at this concrete run. -/
theorem claim_C10_empty_line_loop_witness :
    Advancing cfgC2 State.default [(stC2a, elC2a), (stC2b, elC2b)]
    ∧ (∀ x ∈ [(stC2a, elC2a), (stC2b, elC2b)].dropLast,
        x.2.newline.fakeness = .Real)
    ∧ [(stC2a, elC2a), (stC2b, elC2b)].countP
        (fun x => x.2.newline.fakeness == .Fake) ≤ 1 :=
  claim_C10_empty_line_loop cfgC2 (some [' ', ' ']) (cfgC2.input.length + 2)
    State.default [(stC2a, elC2a), (stC2b, elC2b)] stC2b (by rfl)

/-! ## C6: `parse_simple_whitespace` -/

theorem isWsChar_cases {c : Char} (h : isWsChar c = true) :
    c = ' ' ∨ c = '\t' ∨ c = '\x0c' := by
  unfold isWsChar at h
  rcases Bool.or_eq_true _ _ |>.mp h with h1 | h1
  · rcases Bool.or_eq_true _ _ |>.mp h1 with h2 | h2
    · exact Or.inl (beq_iff_eq.mp h2)
    · exact Or.inr (Or.inl (beq_iff_eq.mp h2))
  · exact Or.inr (Or.inr (beq_iff_eq.mp h1))

/-- Reduction of `simpleWsMatch` at a plain whitespace character. -/
theorem sws_ws {c : Char} (h : isWsChar c = true) (rest : List Char) :
    simpleWsMatch (c :: rest) = c :: simpleWsMatch rest := by
  rw [simpleWsMatch.eq_def]
  split
  next heq => exact absurd heq (by simp)
  next c2 rest2 heq =>
    injection heq with hc hr
    subst hc
    subst hr
    rw [if_pos h]

/-- Reduction of `simpleWsMatch` at a backslash-CRLF continuation. -/
theorem sws_bs_rn (rest : List Char) :
    simpleWsMatch ('\\' :: '\x0d' :: '\n' :: rest)
      = '\\' :: '\x0d' :: '\n' :: simpleWsMatch rest := by
  rw [simpleWsMatch.eq_def]
  split
  next heq => exact absurd heq (by simp)
  next c2 rest2 heq =>
    injection heq with hc hr
    subst hc
    subst hr
    rw [if_neg (by decide), if_pos rfl]
    split
    next t heq2 =>
      injection heq2 with h1 h2
      injection h2 with h3 h4
      rw [h4]
    next t hcon heq2 =>
      injection heq2 with h1 h2
      exact (hcon rest h2.symm).elim
    next t heq2 =>
      injection heq2 with h1 h2
      exact absurd h1 (by decide)
    next hne1 hne2 hne3 =>
      exact absurd rfl (hne1 rest)

/-- Reduction of `simpleWsMatch` at a backslash-LF continuation. -/
theorem sws_bs_n (rest : List Char) :
    simpleWsMatch ('\\' :: '\n' :: rest) = '\\' :: '\n' :: simpleWsMatch rest := by
  rw [simpleWsMatch.eq_def]
  split
  next heq => exact absurd heq (by simp)
  next c2 rest2 heq =>
    injection heq with hc hr
    subst hc
    subst hr
    rw [if_neg (by decide), if_pos rfl]
    split
    next t heq2 =>
      injection heq2 with h1 h2
      exact absurd h1 (by decide)
    next t hcon heq2 =>
      injection heq2 with h1 h2
      exact absurd h1 (by decide)
    next t heq2 =>
      injection heq2 with h1 h2
      rw [h2]
    next hne1 hne2 hne3 =>
      exact absurd rfl (hne3 rest)

/-- Reduction of `simpleWsMatch` after `\r` when no `\n` follows. -/
theorem sws_bs_r {rest : List Char} (h : ∀ t, rest ≠ '\n' :: t) :
    simpleWsMatch ('\\' :: '\x0d' :: rest) = '\\' :: '\x0d' :: simpleWsMatch rest := by
  rw [simpleWsMatch.eq_def]
  split
  next heq => exact absurd heq (by simp)
  next c2 rest2 heq =>
    injection heq with hc hr
    subst hc
    subst hr
    rw [if_neg (by decide), if_pos rfl]
    split
    next rest2 heq2 =>
      injection heq2 with h1 h2
      exact absurd h2 (h rest2)
    next rest2 heq2 =>
      injection heq2 with h1 h2
      rw [h2]
    next rest2 heq2 =>
      injection heq2 with h1 h2
      exact absurd h1 (by decide)
    next hne1 hne2 hne3 =>
      exact absurd rfl (hne2 rest)

/-- Reduction of `simpleWsMatch` at a backslash not followed by a newline. -/
theorem sws_bs_none {rest : List Char} (h : nlMatch rest = none) :
    simpleWsMatch ('\\' :: rest) = [] := by
  rw [simpleWsMatch.eq_def]
  split
  next heq => exact absurd heq (by simp)
  next c2 rest2 heq =>
    injection heq with hc hr
    subst hc
    subst hr
    rw [if_neg (by decide), if_pos rfl]
    split
    next t => simp [nlMatch] at h
    next rest2 heq2 =>
      unfold nlMatch at h
      split at h
      next => simp at h
      next => simp at h
      next => simp at h
      next hn1 hn2 hn3 => exact absurd rfl (hn2 rest2)
    next t => simp [nlMatch] at h
    next hne1 hne2 hne3 => rfl

/-- Reduction of `simpleWsMatch` at a non-whitespace, non-backslash head. -/
theorem sws_other {c : Char} {rest : List Char} (hnws : ¬ isWsChar c = true)
    (hne : ¬ c = '\\') : simpleWsMatch (c :: rest) = [] := by
  rw [simpleWsMatch.eq_def]
  split
  next heq => exact absurd heq (by simp)
  next c2 rest2 heq =>
    injection heq with hc hr
    subst hc
    subst hr
    rw [if_neg hnws, if_neg hne]

/-- No newline pattern applies: `nlMatch` is `none`. -/
theorem nlMatch_none_of_no_pattern {rest : List Char}
    (h1 : ∀ t, rest = '\x0d' :: '\n' :: t → False)
    (h2 : ∀ t, rest = '\x0d' :: t → False)
    (h3 : ∀ t, rest = '\n' :: t → False) : nlMatch rest = none := by
  unfold nlMatch
  split <;> first
    | rfl
    | exact absurd rfl (h1 _)
    | exact absurd rfl (h2 _)
    | exact absurd rfl (h3 _)

/-- The regex match is a prefix of its subject. -/
theorem simpleWsMatch_isPrefix (l : List Char) : simpleWsMatch l <+: l := by
  induction l using simpleWsMatch.induct with
  | case1 => simp [simpleWsMatch]
  | case2 c rest hws ih =>
    rw [sws_ws hws]
    exact List.cons_prefix_cons.mpr ⟨rfl, ih⟩
  | case3 tail hnws ih =>
    rw [sws_bs_rn]
    exact List.cons_prefix_cons.mpr ⟨rfl, List.cons_prefix_cons.mpr ⟨rfl,
      List.cons_prefix_cons.mpr ⟨rfl, ih⟩⟩⟩
  | case4 tail hne hnws ih =>
    rw [sws_bs_r (fun t ht => hne t ht)]
    exact List.cons_prefix_cons.mpr ⟨rfl, List.cons_prefix_cons.mpr ⟨rfl, ih⟩⟩
  | case5 tail hnws ih =>
    rw [sws_bs_n]
    exact List.cons_prefix_cons.mpr ⟨rfl, List.cons_prefix_cons.mpr ⟨rfl, ih⟩⟩
  | case6 rest h1 h2 h3 hnws =>
    rw [sws_bs_none (nlMatch_none_of_no_pattern h1 h2 h3)]
    simp
  | case7 c rest hnws hne =>
    rw [sws_other hnws hne]
    simp

/-- The regex match lies in the simple-whitespace language. -/
theorem simpleWsMatch_text (l : List Char) : SimpleWsText (simpleWsMatch l) := by
  induction l using simpleWsMatch.induct with
  | case1 => exact SimpleWsText.nil
  | case2 c rest hws ih =>
    rw [sws_ws hws]
    exact SimpleWsText.chr hws ih
  | case3 tail hnws ih =>
    rw [sws_bs_rn]
    exact SimpleWsText.cont (Or.inr (Or.inr rfl)) ih
  | case4 tail hne hnws ih =>
    rw [sws_bs_r (fun t ht => hne t ht)]
    exact SimpleWsText.cont (Or.inr (Or.inl rfl)) ih
  | case5 tail hnws ih =>
    rw [sws_bs_n]
    exact SimpleWsText.cont (Or.inl rfl) ih
  | case6 rest h1 h2 h3 hnws =>
    rw [sws_bs_none (nlMatch_none_of_no_pattern h1 h2 h3)]
    exact SimpleWsText.nil
  | case7 c rest hnws hne =>
    rw [sws_other hnws hne]
    exact SimpleWsText.nil

/-- Dropping a non-terminator head of a line keeps the line shape. -/
theorem LineShape_cons_of_not_nl {c : Char} {rest : List Char}
    (h : LineShape (c :: rest)) (hc : isNlChar c = false) : LineShape rest := by
  obtain ⟨body, term, heq, hnn, hterm⟩ := h
  cases body with
  | nil =>
    rw [List.nil_append] at heq
    exfalso
    rcases hterm with ht | ht
    · rcases ht with h1 | h1 | h1 <;> rw [h1] at heq <;> injection heq with hch _ <;>
        rw [hch] at hc <;> simp [isNlChar] at hc
    · rw [ht] at heq
      simp at heq
  | cons b bs =>
    rw [List.cons_append] at heq
    injection heq with hcb hrest
    exact ⟨bs, term, hrest, fun x hx => hnn x (List.mem_cons_of_mem b hx), hterm⟩

/-- A line whose head is a terminator character consists only of its
terminator. -/
theorem LineShape_nl_head {c : Char} {rest : List Char}
    (h : LineShape (c :: rest)) (hc : isNlChar c = true) : IsTerm (c :: rest) := by
  obtain ⟨body, term, heq, hnn, hterm⟩ := h
  cases body with
  | nil =>
    rw [List.nil_append] at heq
    rcases hterm with ht | ht
    · rw [heq]
      exact ht
    · rw [ht] at heq
      simp at heq
  | cons b bs =>
    rw [List.cons_append] at heq
    injection heq with hcb _
    rw [hcb] at hc
    have := hnn b (by simp)
    rw [this] at hc
    simp at hc

/-- On a line-shaped subject, a match containing a backslash extends to the
end of the subject (the backslash-newline reaches the line's end). -/
theorem simpleWsMatch_full {l : List Char} (hl : LineShape l)
    (hb : '\\' ∈ simpleWsMatch l) : simpleWsMatch l = l := by
  induction l using simpleWsMatch.induct with
  | case1 => simp [simpleWsMatch] at hb
  | case2 c rest hws ih =>
    have hcnl : isNlChar c = false := by
      rcases isWsChar_cases hws with hc | hc | hc <;> rw [hc] <;> rfl
    have hrest := LineShape_cons_of_not_nl hl hcnl
    have hcbs : ¬ c = '\\' := by
      rcases isWsChar_cases hws with hc | hc | hc <;> rw [hc] <;> decide
    rw [sws_ws hws] at hb ⊢
    have hb2 : '\\' ∈ simpleWsMatch rest := by
      rcases List.mem_cons.mp hb with h1 | h1
      · exact absurd h1.symm hcbs
      · exact h1
    rw [ih hrest hb2]
  | case3 tail hnws ih =>
    have hterm := LineShape_nl_head
      (LineShape_cons_of_not_nl hl (show isNlChar '\\' = false from rfl))
      (show isNlChar '\x0d' = true from rfl)
    have htail : tail = [] := by
      rcases hterm with h1 | h1 | h1
      · simp at h1
      · simp at h1
      · simp at h1
        exact h1
    subst htail
    rw [sws_bs_rn]
    rfl
  | case4 tail hne hnws ih =>
    have hterm := LineShape_nl_head
      (LineShape_cons_of_not_nl hl (show isNlChar '\\' = false from rfl))
      (show isNlChar '\x0d' = true from rfl)
    have htail : tail = [] := by
      rcases hterm with h1 | h1 | h1
      · simp at h1
      · simp at h1
        exact h1
      · simp at h1
        exact absurd h1 (hne [])
    subst htail
    rw [sws_bs_r (fun t ht => hne t ht)]
    rfl
  | case5 tail hnws ih =>
    have hterm := LineShape_nl_head
      (LineShape_cons_of_not_nl hl (show isNlChar '\\' = false from rfl))
      (show isNlChar '\n' = true from rfl)
    have htail : tail = [] := by
      rcases hterm with h1 | h1 | h1
      · simp at h1
        exact h1
      · simp at h1
      · simp at h1
    subst htail
    rw [sws_bs_n]
    rfl
  | case6 rest h1 h2 h3 hnws =>
    rw [sws_bs_none (nlMatch_none_of_no_pattern h1 h2 h3)] at hb
    simp at hb
  | case7 c rest hnws hne =>
    rw [sws_other hnws hne] at hb
    simp at hb

/-- The `SimpleWsText` language is closed under concatenation. -/
theorem SimpleWsText.append {xs ys : List Char} (hx : SimpleWsText xs)
    (hy : SimpleWsText ys) : SimpleWsText (xs ++ ys) := by
  induction hx with
  | nil => exact hy
  | chr hc _ ih => exact SimpleWsText.chr hc ih
  | cont hnl _ ih =>
    rw [List.cons_append, List.append_assoc]
    exact SimpleWsText.cont hnl ih

/-- Line shapes are closed under `tail`. -/
theorem LineShape_tail {l : List Char} (h : LineShape l) : LineShape l.tail := by
  cases l with
  | nil => exact ⟨[], [], rfl, by intro c hc; simp at hc, Or.inr rfl⟩
  | cons c rest =>
    by_cases hc : isNlChar c = true
    · have hterm := LineShape_nl_head h hc
      have : rest = [] ∨ rest = ['\n'] := by
        rcases hterm with h1 | h1 | h1
        · rw [List.cons.injEq] at h1
          exact Or.inl h1.2
        · rw [List.cons.injEq] at h1
          exact Or.inl h1.2
        · rw [List.cons.injEq] at h1
          exact Or.inr h1.2
      rcases this with h1 | h1 <;> rw [List.tail_cons, h1]
      · exact ⟨[], [], rfl, by intro x hx; simp at hx, Or.inr rfl⟩
      · exact ⟨[], ['\n'], rfl, by intro x hx; simp at hx, Or.inl (Or.inl rfl)⟩
    · rw [List.tail_cons]
      exact LineShape_cons_of_not_nl h (Bool.not_eq_true _ ▸ hc)

/-- Line shapes are closed under `drop`. -/
theorem LineShape_drop {l : List Char} (h : LineShape l) (k : Nat) :
    LineShape (l.drop k) := by
  induction k generalizing l with
  | zero => exact h
  | succ n ih =>
    rw [← List.tail_drop]
    exact LineShape_tail (ih h)

theorem sliceOf_self (input : List Char) (a : Nat) : sliceOf input a a = [] := by
  unfold sliceOf
  simp

theorem sliceOf_split (input : List Char) {a b c : Nat} (hab : a ≤ b) (hbc : b ≤ c) :
    sliceOf input a c = sliceOf input a b ++ sliceOf input b c := by
  unfold sliceOf
  rw [show c - a = (b - a) + (c - b) from by omega, List.take_add, List.drop_drop,
    show a + (b - a) = b from by omega]

theorem sliceOf_of_prefix {input X : List Char} {a : Nat} (h : X <+: input.drop a) :
    sliceOf input a (a + X.length) = X := by
  unfold sliceOf
  rw [Nat.add_sub_cancel_left]
  exact (List.prefix_iff_eq_take.mp h).symm

/-- A successful `capture_ws` at a well-formed state is the regex match of
the remainder of the current line. -/
theorem capture_ws_ok_inv {cfg : Config} {s : State} {m : List Char}
    (hs : WfState cfg s) (h : capture_ws cfg s.line s.column_byte = .ok m) :
    ∃ cur, cfg.lines.get? (s.line - 1) = some cur ∧
      m = simpleWsMatch (cur.drop s.column_byte) := by
  cases hg : cfg.lines.get? (s.line - 1) with
  | none =>
    exfalso
    obtain ⟨n, hn⟩ : ∃ n, s.line = n + 1 := ⟨s.line - 1, by have := hs.line_pos; omega⟩
    rw [hn] at hg
    simp only [Nat.add_sub_cancel] at hg
    unfold capture_ws Config.get_line_after_column Config.get_line at h
    rw [hn] at h
    rw [List.get?_eq_getElem?] at hg
    simp [hg] at h
  | some cur =>
    refine ⟨cur, rfl, ?_⟩
    unfold capture_ws at h
    rw [get_line_after_column_ok hs hg] at h
    exact (Except.ok.inj h).symm

/-- The number of bytes before the start of line `n + 1`. -/
theorem flatten_take_succ {lines : List (List Char)} {n : Nat} {cur : List Char}
    (h : lines.get? n = some cur) :
    ((lines.take (n + 1)).flatten).length = ((lines.take n).flatten).length + cur.length := by
  rw [List.take_succ, List.get?_eq_getElem?] at *
  rw [h]
  simp

/-- Specification of the `parse_simple_whitespace` loop at a well-formed
state: the state stays well-formed, the byte offset and line number only
grow, the consumed slice is simple-whitespace text, and the final match is
the regex match of the final line remainder. -/
theorem psw_loop_spec {cfg : Config} (hc : WfConfig cfg) :
    ∀ (fuel : Nat) (s : State) (m : List Char) (s' : State), WfState cfg s →
      psw_loop cfg fuel s = (.ok m, s') →
      WfState cfg s' ∧ s.byte_offset ≤ s'.byte_offset ∧ s.line ≤ s'.line ∧
      SimpleWsText (sliceOf cfg.input s.byte_offset s'.byte_offset) ∧
      ∃ cur, cfg.lines.get? (s'.line - 1) = some cur ∧
        m = simpleWsMatch (cur.drop s'.column_byte) := by
  intro fuel
  induction fuel with
  | zero =>
    intro s m s' hs h
    unfold psw_loop at h
    simp at h
  | succ n ih =>
    intro s m s' hs h
    unfold psw_loop at h
    cases hg : capture_ws cfg s.line s.column_byte with
    | error e =>
      simp only [hg] at h
      simp at h
    | ok m0 =>
      simp only [hg] at h
      obtain ⟨cur, hcur, hm0⟩ := capture_ws_ok_inv hs hg
      by_cases hm : '\\' ∈ m0
      · rw [if_pos hm] at h
        cases ha : advance_to_next_line cfg s with
        | mk r1 s1 =>
          cases r1 with
          | error e =>
            simp only [ha] at h
            simp at h
          | ok u =>
            simp only [ha] at h
            obtain ⟨cur0, hg0, hs1⟩ := advance_to_next_line_ok ha
            have hcur0 : cur0 = cur := by
              rw [get_line_ok hs hcur] at hg0
              exact (Except.ok.inj hg0).symm
            rw [hcur0] at hs1
            have hcol := hs.col_le cur hcur
            have hlt : s.line - 1 < cfg.lines.length := by
              rw [List.get?_eq_getElem?] at hcur
              exact (List.getElem?_eq_some.mp hcur).1
            obtain ⟨k, hk⟩ : ∃ k, s.line = k + 1 :=
              ⟨s.line - 1, by have := hs.line_pos; omega⟩
            have hs1wf : WfState cfg s1 := by
              rw [hs1]
              refine ⟨by simp <;> omega, by simp <;> omega, by intro c _; simp,
                by intro _; rfl, ?_⟩
              show s.byte_offset + (cur.length - s.column_byte)
                = ((cfg.lines.take (s.line + 1 - 1)).flatten).length + 0
              have hstep : ((cfg.lines.take s.line).flatten).length
                  = ((cfg.lines.take (s.line - 1)).flatten).length + cur.length := by
                rw [hk] at hcur ⊢
                simp only [Nat.add_sub_cancel] at hcur ⊢
                exact flatten_take_succ hcur
              rw [hs.off_eq]
              simp only [Nat.add_sub_cancel]
              omega
            obtain ⟨hwf', hbyte', hline', htext', hrest'⟩ := ih s1 m s' hs1wf h
            have hdrop := drop_byte_offset_eq hc hs hcur
            have hshape : LineShape (cur.drop s.column_byte) :=
              LineShape_drop (hc.shape cur (List.get?_mem hcur)) s.column_byte
            have hfull : m0 = cur.drop s.column_byte := by
              rw [hm0]
              exact simpleWsMatch_full hshape (hm0 ▸ hm)
            have hslice1 : sliceOf cfg.input s.byte_offset s1.byte_offset
                = cur.drop s.column_byte := by
              have hlen : s1.byte_offset
                  = s.byte_offset + (cur.drop s.column_byte).length := by
                rw [hs1]
                simp
              rw [hlen]
              exact sliceOf_of_prefix ⟨(cfg.lines.drop s.line).flatten, hdrop.symm⟩
            have hb1 : s.byte_offset ≤ s1.byte_offset := by
              rw [hs1]
              simp
            have hl1 : s.line ≤ s1.line := by
              rw [hs1]
              simp
            refine ⟨hwf', le_trans hb1 hbyte', le_trans hl1 hline', ?_, hrest'⟩
            rw [sliceOf_split cfg.input hb1 hbyte', hslice1]
            exact SimpleWsText.append (hfull ▸ hm0 ▸ simpleWsMatch_text _) htext'
      · rw [if_neg hm] at h
        simp only [Prod.mk.injEq] at h
        obtain ⟨h1, h2⟩ := h
        have hm' : m = m0 := (Except.ok.inj h1).symm
        subst hm'
        subst h2
        exact ⟨hs, le_refl _, le_refl _,
          by rw [sliceOf_self]; exact SimpleWsText.nil, cur, hcur, hm0⟩

/-- C6: at any well-formed configuration and scan state, a successful
`parse_simple_whitespace` consumes a slice lying in the simple-whitespace
language — only spaces, tabs, formfeeds and backslash-newline sequences, so
never a newline that is not immediately preceded by a backslash — advancing
to following physical lines whenever the match contains a backslash, and the
returned `SimpleWhitespace` is exactly the input slice from the starting
byte offset to the final byte offset (spanning the continued lines). -/
theorem claim_C6_parse_simple_whitespace {cfg : Config} {s : State}
    {w : SimpleWhitespace} {s' : State} (hc : WfConfig cfg) (hs : WfState cfg s)
    (h : parse_simple_whitespace cfg s = (.ok w, s')) :
    w.value = sliceOf cfg.input s.byte_offset s'.byte_offset
    ∧ SimpleWsText w.value
    ∧ s.byte_offset ≤ s'.byte_offset
    ∧ s.line ≤ s'.line := by
  unfold parse_simple_whitespace at h
  cases hl : psw_loop cfg (cfg.lines.length + 2) s with
  | mk r1 s1 =>
  cases r1 with
  | error e =>
    simp only [hl] at h
    simp at h
  | ok m =>
    simp only [hl] at h
    cases ha : advance_this_line cfg s1 m.length m.length with
    | mk r2 s2 =>
    cases r2 with
    | error e =>
      simp only [ha] at h
      simp at h
    | ok u =>
      simp only [ha] at h
      simp only [Prod.mk.injEq] at h
      obtain ⟨h1, h2⟩ := h
      have hw : w = ⟨sliceOf cfg.input s.byte_offset s2.byte_offset⟩ :=
        (Except.ok.inj h1).symm
      subst h2
      obtain ⟨hwf1, hb1, hline1, htext1, cur, hcur, hm⟩ :=
        psw_loop_spec hc _ s m s1 hs hl
      obtain ⟨cur0, hg0, hbound2, hs2⟩ := advance_this_line_ok ha
      have hdrop := drop_byte_offset_eq hc hwf1 hcur
      have hmpre : m <+: cfg.input.drop s1.byte_offset := by
        rw [hdrop, hm]
        exact (simpleWsMatch_isPrefix _).trans (List.prefix_append _ _)
      have hb2 : s2.byte_offset = s1.byte_offset + m.length := by
        rw [hs2]
      have hsplit : sliceOf cfg.input s.byte_offset s2.byte_offset
          = sliceOf cfg.input s.byte_offset s1.byte_offset ++ m := by
        rw [hb2, sliceOf_split cfg.input hb1 (by omega), sliceOf_of_prefix hmpre]
      have hl2 : s2.line = s1.line := by
        rw [hs2]
      rw [hw]
      refine ⟨rfl, ?_, by omega, by rw [hl2]; exact hline1⟩
      rw [show (⟨sliceOf cfg.input s.byte_offset s2.byte_offset⟩ :
          SimpleWhitespace).value = sliceOf cfg.input s.byte_offset s2.byte_offset
        from rfl, hsplit]
      exact SimpleWsText.append htext1 (hm ▸ simpleWsMatch_text _)

/-- Concrete two-line source with a backslash continuation:
`"  \<newline><tab> x"`. -/
def cfgC6w : Config :=
  { input := "  \\\n\t x".data, lines := ["  \\\n".data, "\t x".data],
    default_newline := "\n".data }

/-- The scan state after `parse_simple_whitespace` on `cfgC6w` from the
start: line 2, column 2, byte offset 6. -/
def stC6w : State :=
  { line := 2, column := 2, column_byte := 2, absolute_indent := [],
    is_parenthesized := false, byte_offset := 6 }

/-- C6 witness: on `cfgC6w`, the returned whitespace `"  \<newline><tab> "`
spans both physical lines, equals the consumed slice, and lies in the
simple-whitespace language. -/
theorem claim_C6_parse_simple_whitespace_witness :
    (⟨"  \\\n\t ".data⟩ : SimpleWhitespace).value
        = sliceOf cfgC6w.input State.default.byte_offset stC6w.byte_offset
    ∧ SimpleWsText (⟨"  \\\n\t ".data⟩ : SimpleWhitespace).value
    ∧ State.default.byte_offset ≤ stC6w.byte_offset
    ∧ State.default.line ≤ stC6w.line := by
  have hcfg : WfConfig cfgC6w := by
    refine ⟨rfl, ?_, by decide⟩
    intro l hl
    rcases List.mem_pair.mp hl with h | h <;> subst h
    · exact ⟨"  \\".data, ['\n'], rfl, by decide, Or.inl (Or.inl rfl)⟩
    · exact ⟨"\t x".data, [], by simp, by decide, Or.inr rfl⟩
  have hst : WfState cfgC6w State.default :=
    ⟨by decide, by decide, fun cur _ => Nat.zero_le _, fun _ => rfl, rfl⟩
  exact claim_C6_parse_simple_whitespace hcfg hst (by rfl)


/-! ## C2: the cut point of `parse_empty_lines` with an override -/

/-- The per-element test of the `find_last_line_at` fold, as a Boolean
predicate on a captured `(state, empty_line)` pair: the captured line is
non-blank (it has a comment or nonempty whitespace), its raw source line
starts with the (override) indentation, and the byte right after that
indentation is a further space or tab.  Pairs whose raw line is unavailable,
and pairs whose raw line is exactly the indentation (where the Rust code's
byte indexing would panic), test false. -/
def cutP (cfg : Config) (ov : Option (List Char)) : State × EmptyLine → Bool
  | (s, empty_line) =>
    let line_number := if s.column = 0 then s.line - 1 else s.line
    match cfg.get_line line_number with
    | .error _ => false
    | .ok raw_line =>
      if empty_line.comment = none ∧ empty_line.whitespace.value = [] then false
      else
        let indent := ov.getD s.absolute_indent
        if indent.isPrefixOf raw_line then
          match raw_line.get? indent.length with
          | some c => decide (c = ' ' ∨ c = '\t')
          | none => false
        else false

/-- The index of the last element of a list satisfying `p`, if any. -/
def lastIdxP {α : Type} (p : α → Bool) : List α → Option Nat
  | [] => none
  | x :: rest =>
    match lastIdxP p rest with
    | some k => some (k + 1)
    | none => if p x then some 0 else none

theorem lastIdxP_none {α : Type} {p : α → Bool} {l : List α}
    (h : lastIdxP p l = none) : ∀ j x, l.get? j = some x → p x = false := by
  induction l with
  | nil =>
    intro j x hx
    cases j <;> exact Option.noConfusion hx
  | cons a rest ih =>
    intro j x hx
    unfold lastIdxP at h
    cases hr : lastIdxP p rest with
    | some k =>
      simp only [hr] at h
      exact Option.noConfusion h
    | none =>
      simp only [hr] at h
      cases hp : p a with
      | true => rw [if_pos hp] at h; exact Option.noConfusion h
      | false =>
        match j with
        | 0 =>
          have hxa : x = a := (Option.some.inj hx).symm
          rw [hxa]; exact hp
        | Nat.succ j' => exact ih hr j' x hx

theorem lastIdxP_spec {α : Type} {p : α → Bool} {l : List α} {k : Nat}
    (h : lastIdxP p l = some k) :
    (∃ x, l.get? k = some x ∧ p x = true)
      ∧ ∀ j x, k < j → l.get? j = some x → p x = false := by
  induction l generalizing k with
  | nil => exact absurd h (by simp [lastIdxP])
  | cons a rest ih =>
    unfold lastIdxP at h
    cases hr : lastIdxP p rest with
    | some k' =>
      simp only [hr] at h
      have hk : k = k' + 1 := (Option.some.inj h).symm
      subst hk
      obtain ⟨⟨x, hx, hpx⟩, hafter⟩ := ih hr
      refine ⟨⟨x, hx, hpx⟩, ?_⟩
      intro j y hj hy
      match j with
      | Nat.succ j' => exact hafter j' y (by omega) hy
    | none =>
      simp only [hr] at h
      cases hp : p a with
      | false =>
        rw [if_neg (by rw [hp]; exact Bool.false_ne_true)] at h
        exact absurd h (by simp)
      | true =>
        rw [if_pos hp] at h
        have hk : k = 0 := (Option.some.inj h).symm
        subst hk
        refine ⟨⟨a, rfl, hp⟩, ?_⟩
        intro j y hj hy
        match j with
        | Nat.succ j' => exact lastIdxP_none hr j' y hy

theorem lastIdxP_cons_false {α : Type} {p : α → Bool} {x : α} (hp : p x = false)
    (rest : List α) (ind : Nat) (acc : Option Nat) :
    (match lastIdxP p (x :: rest) with
     | some k => some (ind + k)
     | none => acc)
      = (match lastIdxP p rest with
         | some k => some (ind + 1 + k)
         | none => acc) := by
  cases hlr : lastIdxP p rest with
  | some k =>
    simp only [lastIdxP, hlr]
    congr 1
    omega
  | none =>
    simp [lastIdxP, hlr, hp]

theorem lastIdxP_cons_true {α : Type} {p : α → Bool} {x : α} (hp : p x = true)
    (rest : List α) (ind : Nat) (acc : Option Nat) :
    (match lastIdxP p (x :: rest) with
     | some k => some (ind + k)
     | none => acc)
      = (match lastIdxP p rest with
         | some k => some (ind + 1 + k)
         | none => some ind) := by
  cases hlr : lastIdxP p rest with
  | some k =>
    simp only [lastIdxP, hlr]
    congr 1
    omega
  | none =>
    simp [lastIdxP, hlr, hp]

/-- The fold of `find_last_line_at` computes the last index (offset by the
running counter) whose element satisfies `cutP`, falling back to the
accumulator. -/
theorem find_last_line_at_go_spec {cfg : Config} {ov : Option (List Char)} :
    ∀ (l : List (State × EmptyLine)) (ind : Nat) (acc r : Option Nat),
      find_last_line_at.go cfg ov l ind acc = .ok r →
      r = (match lastIdxP (cutP cfg ov) l with
           | some k => some (ind + k)
           | none => acc) := by
  intro l
  induction l with
  | nil =>
    intro ind acc r h
    unfold find_last_line_at.go at h
    have : acc = r := Except.ok.inj h
    rw [← this]
    rfl
  | cons x rest ih =>
    obtain ⟨s, el⟩ := x
    intro ind acc r h
    unfold find_last_line_at.go at h
    cases hg : cfg.get_line (if s.column = 0 then s.line - 1 else s.line) with
    | error e =>
      simp only [hg] at h
      rw [lastIdxP_cons_false (x := (s, el)) (by unfold cutP; simp only [hg])]
      exact ih (ind + 1) acc r h
    | ok raw_line =>
      simp only [hg] at h
      by_cases hblank : el.comment = none ∧ el.whitespace.value = []
      · rw [if_pos hblank] at h
        rw [lastIdxP_cons_false (x := (s, el))
          (by unfold cutP; simp only [hg]; rw [if_pos hblank])]
        exact ih (ind + 1) acc r h
      · rw [if_neg hblank] at h
        by_cases hpre : (ov.getD s.absolute_indent).isPrefixOf raw_line
        · rw [if_pos hpre] at h
          cases hget : raw_line.get? (ov.getD s.absolute_indent).length with
          | none =>
            simp only [hget] at h
            exact absurd h (by simp)
          | some c =>
            simp only [hget] at h
            by_cases hc : c = ' ' ∨ c = '\t'
            · rw [if_pos hc] at h
              rw [lastIdxP_cons_true (x := (s, el))
                (by unfold cutP
                    simp only [hg]
                    rw [if_neg hblank, if_pos hpre]
                    simp only [hget]
                    exact decide_eq_true hc)]
              exact ih (ind + 1) (some ind) r h
            · rw [if_neg hc] at h
              rw [lastIdxP_cons_false (x := (s, el))
                (by unfold cutP
                    simp only [hg]
                    rw [if_neg hblank, if_pos hpre]
                    simp only [hget]
                    exact decide_eq_false hc)]
              exact ih (ind + 1) acc r h
        · rw [if_neg hpre] at h
          rw [lastIdxP_cons_false (x := (s, el))
            (by unfold cutP; simp only [hg]; rw [if_neg hblank, if_neg hpre])]
          exact ih (ind + 1) acc r h

/-- `find_last_line_at` computes the last index satisfying `cutP`. -/
theorem find_last_line_at_spec {cfg : Config} {ov : Option (List Char)}
    {L : List (State × EmptyLine)} {r : Option Nat}
    (h : find_last_line_at L cfg ov = .ok r) : r = lastIdxP (cutP cfg ov) L := by
  unfold find_last_line_at at h
  rw [find_last_line_at_go_spec L 0 none r h]
  cases hlr : lastIdxP (cutP cfg ov) L with
  | some k => simp
  | none => rfl

/-- C2 (amended): with an override indentation, the cut point is the *last*
captured (trimmed) line that is non-blank and whose raw source line starts
with the override indentation followed by a further space or tab (`cutP`);
`parse_empty_lines` returns exactly the lines strictly *after* that cut
point — dropping the lines up to and including the cut, or dropping nothing
when no line satisfies the test — and the scan state it returns is the last
captured state, i.e. the state past *all* captured lines, so the dropped
lines are consumed rather than left for the next owner. -/
theorem claim_C2_empty_lines_after_cut {cfg : Config} {s t s' : State}
    {ov : List Char} {res : List EmptyLine} {L0 : List (State × EmptyLine)}
    (h0 : parse_all_empty_lines_impl cfg (some ov) (cfg.input.length + 2) s
            = (.ok L0, t))
    (hok : parse_empty_lines cfg s (some ov) = (.ok res, s')) :
    res = ((trim_to_indented (some ov) L0).drop
            (match lastIdxP (cutP cfg (some ov)) (trim_to_indented (some ov) L0) with
             | some k => k + 1
             | none => 0)).map Prod.snd
    ∧ s' = (match (trim_to_indented (some ov) L0).getLast? with
            | some x => x.1
            | none => s)
    ∧ ∀ k, lastIdxP (cutP cfg (some ov)) (trim_to_indented (some ov) L0) = some k →
        ((∃ x, (trim_to_indented (some ov) L0).get? k = some x
               ∧ cutP cfg (some ov) x = true)
          ∧ ∀ j x, k < j → (trim_to_indented (some ov) L0).get? j = some x →
              cutP cfg (some ov) x = false) := by
  unfold parse_empty_lines at hok
  simp only [h0, Option.isSome_some, eq_self_iff_true, if_true] at hok
  cases hf : find_last_line_at (trim_to_indented (some ov) L0) cfg (some ov) with
  | error e =>
    simp only [hf, Prod.mk.injEq] at hok
    exact absurd hok.1 (by simp)
  | ok cut =>
    simp only [hf, Prod.mk.injEq] at hok
    obtain ⟨h1, h2⟩ := hok
    have hcut := find_last_line_at_spec hf
    have hres := (Except.ok.inj h1).symm
    refine ⟨?_, ?_, ?_⟩
    · rw [hres, hcut]
    · rw [← h2]
      cases hgl : (trim_to_indented (some ov) L0).getLast? with
      | none => rfl
      | some x =>
        obtain ⟨a, b⟩ := x
        rfl
    · intro k hk
      exact lastIdxP_spec hk

/-- C2 witness: the amended statement at the concrete fixture `cfgC2` with
override `"  "`: both captured comment lines are consumed, the cut point is
the first (more indented) one, and only the second is returned. -/
theorem claim_C2_empty_lines_after_cut_witness :
    [elC2b] = ((trim_to_indented (some [' ', ' ']) [(stC2a, elC2a), (stC2b, elC2b)]).drop
            (match lastIdxP (cutP cfgC2 (some [' ', ' ']))
                (trim_to_indented (some [' ', ' ']) [(stC2a, elC2a), (stC2b, elC2b)]) with
             | some k => k + 1
             | none => 0)).map Prod.snd
    ∧ stC2b = (match (trim_to_indented (some [' ', ' '])
                  [(stC2a, elC2a), (stC2b, elC2b)]).getLast? with
               | some x => x.1
               | none => State.default)
    ∧ ∀ k, lastIdxP (cutP cfgC2 (some [' ', ' ']))
            (trim_to_indented (some [' ', ' ']) [(stC2a, elC2a), (stC2b, elC2b)]) = some k →
        ((∃ x, (trim_to_indented (some [' ', ' '])
                  [(stC2a, elC2a), (stC2b, elC2b)]).get? k = some x
               ∧ cutP cfgC2 (some [' ', ' ']) x = true)
          ∧ ∀ j x, k < j →
              (trim_to_indented (some [' ', ' '])
                  [(stC2a, elC2a), (stC2b, elC2b)]).get? j = some x →
              cutP cfgC2 (some [' ', ' ']) x = false) :=
  @claim_C2_empty_lines_after_cut cfgC2 State.default stC2b stC2b [' ', ' ']
    [elC2b] [(stC2a, elC2a), (stC2b, elC2b)] (by rfl) (by rfl)


/-! ## C5: the blank line between a decorator and `def` -/

/-- `Config::get_line` at a known raw line. -/
theorem get_line_at {cfg : Config} {n : Nat} {cur : List Char}
    (h : cfg.lines.get? n = some cur) : cfg.get_line (n + 1) = .ok cur := by
  have h0 : cfg.get_line (n + 1)
      = (match cfg.lines.get? n with
         | some l => .ok l
         | none => .error (.InternalError "line out of range".data)) := rfl
  rw [h0, h]

/-- `Config::get_line_after_column` at a known raw line and in-range column. -/
theorem glac_at {cfg : Config} {n col : Nat} {cur : List Char}
    (h : cfg.lines.get? n = some cur) (hcol : col ≤ cur.length) :
    cfg.get_line_after_column (n + 1) col = .ok (cur.drop col) := by
  unfold Config.get_line_after_column
  simp only [get_line_at h]
  rw [if_pos hcol]

/-- `nlMatch` at a head that is neither `\r` nor `\n`. -/
theorem nlMatch_cons_none {c : Char} {rest : List Char} (h1 : ¬ c = '\x0d')
    (h2 : ¬ c = '\n') : nlMatch (c :: rest) = none := by
  apply nlMatch_none_of_no_pattern
  · intro t ht
    injection ht with ha _
    exact h1 ha
  · intro t ht
    injection ht with ha _
    exact h1 ha
  · intro t ht
    injection ht with ha _
    exact h2 ha

/-- `commentMatch` at a head other than `#`. -/
theorem commentMatch_cons_none {c : Char} {rest : List Char} (h : ¬ c = '#') :
    commentMatch (c :: rest) = none := by
  unfold commentMatch
  split
  next heq =>
    injection heq with h1 _
    exact absurd h1 h
  next => rfl

/-- `parse_indent` with no override at the start of a line, with no absolute
indent: trivially succeeds consuming nothing. -/
theorem parse_indent_zero {cfg : Config} {n c : Nat} {b : Bool} {o : Nat}
    {cur : List Char} (hget : cfg.lines.get? n = some cur) :
    parse_indent cfg ⟨n + 1, c, 0, [], b, o⟩ none
      = (.ok true, ⟨n + 1, c, 0, [], b, o⟩) := by
  unfold parse_indent
  simp only [glac_at hget (Nat.zero_le _), Option.getD_none]
  simp

/-- One unfolding of the `parse_simple_whitespace` loop when the match has no
backslash: it returns at once. -/
theorem psw_loop_succ_nobs {cfg : Config} {fuel : Nat} {s : State} {m : List Char}
    (hcap : capture_ws cfg s.line s.column_byte = .ok m) (hbs : '\\' ∉ m) :
    psw_loop cfg (fuel + 1) s = (.ok m, s) := by
  unfold psw_loop
  simp only [hcap]
  rw [if_neg hbs]

/-- `parse_simple_whitespace` at the start of a line whose match is empty:
nothing is consumed. -/
theorem psw_at_nows {cfg : Config} {n c : Nat} {b : Bool} {o : Nat}
    {cur : List Char} (hget : cfg.lines.get? n = some cur)
    (hm : simpleWsMatch cur = []) :
    parse_simple_whitespace cfg ⟨n + 1, c, 0, [], b, o⟩
      = (.ok ⟨[]⟩, ⟨n + 1, c, 0, [], b, o⟩) := by
  have hglac : cfg.get_line_after_column (n + 1) 0 = .ok cur := by
    rw [glac_at hget (Nat.zero_le _), List.drop_zero]
  have hcap : capture_ws cfg (n + 1) 0 = .ok [] := by
    unfold capture_ws
    simp only [hglac, hm]
  have hloop : psw_loop cfg (cfg.lines.length + 2) (⟨n + 1, c, 0, [], b, o⟩ : State)
      = (.ok [], ⟨n + 1, c, 0, [], b, o⟩) :=
    psw_loop_succ_nobs hcap (by simp)
  have hadv : advance_this_line cfg (⟨n + 1, c, 0, [], b, o⟩ : State)
      (List.length ([] : List Char)) (List.length ([] : List Char))
      = (.ok (), ⟨n + 1, c, 0, [], b, o⟩) := by
    unfold advance_this_line
    simp only [get_line_at hget]
    simp
  unfold parse_simple_whitespace
  simp only [hloop, hadv]
  rw [sliceOf_self]

/-- `parse_comment` at the start of a line with no comment match. -/
theorem parse_comment_none_at {cfg : Config} {n c : Nat} {b : Bool} {o : Nat}
    {cur : List Char} (hget : cfg.lines.get? n = some cur)
    (hcm : commentMatch cur = none) :
    parse_comment cfg ⟨n + 1, c, 0, [], b, o⟩
      = (.ok none, ⟨n + 1, c, 0, [], b, o⟩) := by
  unfold parse_comment
  have hglac : cfg.get_line_after_column (n + 1) 0 = .ok cur := by
    rw [glac_at hget (Nat.zero_le _), List.drop_zero]
  simp only [hglac, hcm]

/-- `parse_newline` at the start of a line with no newline match (and not at
end of input at a nonzero column): returns `none`, consuming nothing. -/
theorem parse_newline_none_at {cfg : Config} {n c : Nat} {b : Bool} {o : Nat}
    {cur : List Char} (hget : cfg.lines.get? n = some cur)
    (hnl : nlMatch cur = none) :
    parse_newline cfg ⟨n + 1, c, 0, [], b, o⟩
      = (.ok none, ⟨n + 1, c, 0, [], b, o⟩) := by
  unfold parse_newline
  have hglac : cfg.get_line_after_column (n + 1) 0 = .ok cur := by
    rw [glac_at hget (Nat.zero_le _), List.drop_zero]
  simp only [hglac, hnl]
  simp

/-- `parse_newline` at the start of a blank line `"\n"` that is not the last
line, with `"\n"` the default newline: a `Real` newline with no stored value,
advancing to the next line. -/
theorem parse_newline_at_blank {cfg : Config} {n c : Nat} {b : Bool} {o : Nat}
    (hget : cfg.lines.get? n = some ['\n'])
    (hlt : n + 1 < cfg.lines.length)
    (hdn : cfg.default_newline = ['\n']) :
    parse_newline cfg ⟨n + 1, c, 0, [], b, o⟩
      = (.ok (some ⟨none, .Real⟩), ⟨n + 2, 0, 0, [], b, o + 1⟩) := by
  unfold parse_newline
  have hglac : cfg.get_line_after_column (n + 1) 0 = .ok ['\n'] := by
    rw [glac_at hget (Nat.zero_le _), List.drop_zero]
  have hadv : advance_this_line cfg (⟨n + 1, c, 0, [], b, o⟩ : State)
      (List.length ['\n']) (List.length ['\n'])
      = (.ok (), ⟨n + 1, c + 1, 1, [], b, o + 1⟩) := by
    unfold advance_this_line
    simp only [get_line_at hget]
    simp
  have hnext : advance_to_next_line cfg (⟨n + 1, c + 1, 1, [], b, o + 1⟩ : State)
      = (.ok (), ⟨n + 2, 0, 0, [], b, o + 1⟩) := by
    unfold advance_to_next_line
    simp only [get_line_at hget]
    rfl
  simp only [hglac]
  simp only [show nlMatch ['\n'] = some ['\n'] from rfl]
  simp only [hadv, get_line_at hget]
  rw [if_neg (by simp)]
  rw [if_pos (by simpa using hlt)]
  simp only [hnext]
  rw [hdn, if_pos rfl]

/-- `parse_empty_line` at a blank (newline-only) line that is not the last
line: captures the canonical empty line and moves to the next line. -/
theorem parse_empty_line_blank {cfg : Config} {n c : Nat} {b : Bool} {o : Nat}
    (hget : cfg.lines.get? n = some ['\n'])
    (hlt : n + 1 < cfg.lines.length)
    (hdn : cfg.default_newline = ['\n']) :
    parse_empty_line cfg ⟨n + 1, c, 0, [], b, o⟩ none
      = (.ok (some { indent := true, whitespace := ⟨[]⟩, comment := none,
                     newline := ⟨none, .Real⟩, indentation := some [] }),
         ⟨n + 2, 0, 0, [], b, o + 1⟩) := by
  unfold parse_empty_line
  simp only [parse_indent_zero hget,
    psw_at_nows hget (show simpleWsMatch ['\n'] = [] from rfl),
    parse_comment_none_at hget (show commentMatch ['\n'] = none from rfl),
    parse_newline_at_blank hget hlt hdn]
  simp

/-- `parse_empty_line` at a line starting with `d` (the `def` keyword):
nothing is captured. -/
theorem parse_empty_line_at_def {cfg : Config} {n c : Nat} {b : Bool} {o : Nat}
    {r : List Char} (hget : cfg.lines.get? n = some ('d' :: r)) :
    parse_empty_line cfg ⟨n + 1, c, 0, [], b, o⟩ none
      = (.ok none, ⟨n + 1, c, 0, [], b, o⟩) := by
  unfold parse_empty_line
  simp only [parse_indent_zero hget,
    psw_at_nows hget (sws_other (by decide) (by decide)),
    parse_comment_none_at hget (commentMatch_cons_none (by decide)),
    parse_newline_none_at hget (nlMatch_cons_none (by decide) (by decide))]

/-- One unfolding of `_parse_all_empty_lines`. -/
theorem parse_all_empty_lines_impl_succ (cfg : Config)
    (ov : Option (List Char)) (fuel : Nat) (s : State) :
    parse_all_empty_lines_impl cfg ov (fuel + 1) s
      = (match parse_empty_line cfg s ov with
         | (.error e, s1) => (.error e, s1)
         | (.ok none, s1) => (.ok [], s1)
         | (.ok (some el), s1) =>
           match el.newline.fakeness with
           | .Fake => (.ok [(s1, el)], s1)
           | .Real =>
             match parse_all_empty_lines_impl cfg ov fuel s1 with
             | (.error e, s2) => (.error e, s2)
             | (.ok rest, s2) => (.ok ((s1, el) :: rest), s2)) := rfl

/-- The speculative empty-line pass over a blank line followed by a `def`
line: exactly the blank line is captured. -/
theorem parse_all_empty_lines_blank_then_def {cfg : Config} {n c : Nat}
    {b : Bool} {o : Nat} {r : List Char} (fuel : Nat)
    (hget1 : cfg.lines.get? n = some ['\n'])
    (hget2 : cfg.lines.get? (n + 1) = some ('d' :: r))
    (hdn : cfg.default_newline = ['\n']) :
    parse_all_empty_lines_impl cfg none (fuel + 2) ⟨n + 1, c, 0, [], b, o⟩
      = (.ok [(⟨n + 2, 0, 0, [], b, o + 1⟩,
               { indent := true, whitespace := ⟨[]⟩, comment := none,
                 newline := ⟨none, .Real⟩, indentation := some [] })],
         ⟨n + 2, 0, 0, [], b, o + 1⟩) := by
  have hlt : n + 1 < cfg.lines.length := by
    by_contra hge
    rw [List.get?_eq_none.mpr (by omega)] at hget2
    exact Option.noConfusion hget2
  rw [show fuel + 2 = (fuel + 1) + 1 from rfl]
  rw [parse_all_empty_lines_impl_succ]
  simp only [parse_empty_line_blank hget1 hlt hdn]
  rw [parse_all_empty_lines_impl_succ]
  simp only [parse_empty_line_at_def hget2]

/-- `parse_empty_lines` (no override) over a blank line followed by a `def`
line: returns exactly the canonical blank empty line, with the state at the
start of the `def` line. -/
theorem parse_empty_lines_blank_then_def {cfg : Config} {n c : Nat}
    {b : Bool} {o : Nat} {r : List Char}
    (hget1 : cfg.lines.get? n = some ['\n'])
    (hget2 : cfg.lines.get? (n + 1) = some ('d' :: r))
    (hdn : cfg.default_newline = ['\n']) :
    parse_empty_lines cfg ⟨n + 1, c, 0, [], b, o⟩ none
      = (.ok [{ indent := true, whitespace := ⟨[]⟩, comment := none,
                newline := ⟨none, .Real⟩, indentation := some [] }],
         ⟨n + 2, 0, 0, [], b, o + 1⟩) := by
  unfold parse_empty_lines
  simp only [parse_all_empty_lines_blank_then_def cfg.input.length hget1 hget2 hdn]
  simp only [Option.isSome_none, Bool.false_eq_true, if_false]
  unfold find_last_line_at
  unfold find_last_line_at.go
  simp [get_line_at hget1, show (n + 2) - 1 = n + 1 from rfl]
  rw [show find_last_line_at.go cfg none [] 1 none = Except.ok none from rfl]
  rfl

/-- `FunctionDef::with_decorators` always moves the function's former
`leading_lines` into `lines_after_decorators`. -/
theorem with_decorators_lines_after (fd : FunctionDef) (decs : List Decorator) :
    (fd.with_decorators decs).lines_after_decorators = fd.leading_lines := by
  cases fd with
  | mk nm p bd ll lad dd w1 w2 w3 w4 => cases decs <;> rfl

/-- C5: for a decorated function definition whose `def` token's preceding
whitespace starts at the beginning of a blank (newline-only) line followed by
the `def` line, `make_function_def` parses that blank line into
`leading_lines`, and `with_decorators` moves it into
`lines_after_decorators` — so the decorated definition stores the blank line
there; and every decorator built by `make_decorator` has the default
`trailing_whitespace` (a bare newline), which therefore cannot contain the
blank line. -/
theorem claim_C5_blank_line_after_decorator {cfg : Config} {n c : Nat}
    {b : Bool} {o : Nat} {r : List Char}
    (hget1 : cfg.lines.get? n = some ['\n'])
    (hget2 : cfg.lines.get? (n + 1) = some ('d' :: r))
    (hdn : cfg.default_newline = ['\n']) :
    (∀ (def_tok name_tok open_paren_tok close_paren_tok colon_tok : Token)
       (params : Option Parameters) (body : Suite) (fd : FunctionDef)
       (decs : List Decorator),
        def_tok.whitespace_before = ⟨n + 1, c, 0, [], b, o⟩ →
        make_function_def cfg def_tok name_tok open_paren_tok params
            close_paren_tok colon_tok body = .ok fd →
        (fd.with_decorators decs).lines_after_decorators
          = [{ indent := true, whitespace := ⟨[]⟩, comment := none,
               newline := ⟨none, .Real⟩, indentation := some [] }])
    ∧ (∀ (at_tok name_tok : Token) (dec : Decorator),
        make_decorator cfg at_tok name_tok = .ok dec →
        dec.trailing_whitespace = TrailingWhitespace.default) := by
  constructor
  · intro def_tok name_tok open_paren_tok close_paren_tok colon_tok params body
      fd decs hwb hmk
    unfold make_function_def at hmk
    rw [hwb] at hmk
    simp only [parse_empty_lines_blank_then_def hget1 hget2 hdn] at hmk
    cases h1 : parse_simple_whitespace cfg def_tok.whitespace_after with
    | mk r1 t1 =>
    cases r1 with
    | error e =>
      simp only [h1] at hmk
      simp at hmk
    | ok wad =>
    simp only [h1] at hmk
    cases h2 : parse_simple_whitespace cfg name_tok.whitespace_after with
    | mk r2 t2 =>
    cases r2 with
    | error e =>
      simp only [h2] at hmk
      simp at hmk
    | ok wan =>
    simp only [h2] at hmk
    cases h3 : parse_simple_whitespace cfg colon_tok.whitespace_before with
    | mk r3 t3 =>
    cases r3 with
    | error e =>
      simp only [h3] at hmk
      simp at hmk
    | ok wbc =>
    simp only [h3] at hmk
    cases h4 : parse_parenthesizable_whitespace cfg open_paren_tok.whitespace_after with
    | mk r4 t4 =>
    cases r4 with
    | error e =>
      simp only [h4] at hmk
      simp at hmk
    | ok wbp =>
    simp only [h4] at hmk
    have hfd := Except.ok.inj hmk
    rw [with_decorators_lines_after, ← hfd]
    rfl
  · intro at_tok name_tok dec hmk
    unfold make_decorator at hmk
    cases h1 : parse_empty_lines cfg at_tok.whitespace_before none with
    | mk r1 t1 =>
    cases r1 with
    | error e =>
      simp only [h1] at hmk
      simp at hmk
    | ok ll =>
    simp only [h1] at hmk
    cases h2 : parse_simple_whitespace cfg at_tok.whitespace_after with
    | mk r2 t2 =>
    cases r2 with
    | error e =>
      simp only [h2] at hmk
      simp at hmk
    | ok waa =>
    simp only [h2] at hmk
    have hdec := Except.ok.inj hmk
    rw [← hdec]

/-- Source fixture for the C5 witness: a decorator `@f`, a blank line, then a
one-line function definition. -/
def cfgC5 : Config :=
  { input := "@f\n\ndef g(): pass\n".data,
    lines := ["@f\n".data, "\n".data, "def g(): pass\n".data],
    default_newline := "\n".data }

/-- The `def` keyword token of `cfgC5`: its preceding whitespace starts at
the blank line (line 2), its following whitespace after byte 7. -/
def defTokC5 : Token :=
  { kind := .Keyword, string := "def".data,
    whitespace_before := ⟨2, 0, 0, [], false, 3⟩,
    whitespace_after := ⟨3, 3, 3, [], false, 7⟩, relative_indent := none }

/-- The function-name token `g` of `cfgC5`. -/
def nameTokC5 : Token :=
  { kind := .Name, string := "g".data,
    whitespace_before := ⟨3, 4, 4, [], false, 8⟩,
    whitespace_after := ⟨3, 5, 5, [], false, 9⟩, relative_indent := none }

/-- The `(` token of `cfgC5`. -/
def openParenTokC5 : Token :=
  { kind := .Op, string := "(".data,
    whitespace_before := ⟨3, 5, 5, [], false, 9⟩,
    whitespace_after := ⟨3, 6, 6, [], false, 10⟩, relative_indent := none }

/-- The `)` token of `cfgC5`. -/
def closeParenTokC5 : Token :=
  { kind := .Op, string := ")".data,
    whitespace_before := ⟨3, 6, 6, [], false, 10⟩,
    whitespace_after := ⟨3, 7, 7, [], false, 11⟩, relative_indent := none }

/-- The `:` token of `cfgC5`. -/
def colonTokC5 : Token :=
  { kind := .Op, string := ":".data,
    whitespace_before := ⟨3, 7, 7, [], false, 11⟩,
    whitespace_after := ⟨3, 8, 8, [], false, 12⟩, relative_indent := none }

/-- The `@` token of `cfgC5`. -/
def atTokC5 : Token :=
  { kind := .Op, string := "@".data,
    whitespace_before := ⟨1, 0, 0, [], false, 0⟩,
    whitespace_after := ⟨1, 1, 1, [], false, 1⟩, relative_indent := none }

/-- The decorator-name token `f` of `cfgC5`. -/
def decNameTokC5 : Token :=
  { kind := .Name, string := "f".data,
    whitespace_before := ⟨1, 1, 1, [], false, 1⟩,
    whitespace_after := ⟨1, 2, 2, [], false, 2⟩, relative_indent := none }

/-- The suite `pass` of the C5 fixture's function. -/
def bodyC5 : Suite :=
  Suite.SimpleStatementSuite
    { body := [.Pass none], leading_whitespace := ⟨[' ']⟩,
      trailing_whitespace := TrailingWhitespace.default }

/-- The `FunctionDef` node `make_function_def` builds on the C5 fixture. -/
def fdC5 : FunctionDef :=
  FunctionDef.mk { value := ['g'], lpar := [], rpar := [] } Parameters.default
    bodyC5
    [{ indent := true, whitespace := ⟨[]⟩, comment := none,
       newline := ⟨none, .Real⟩, indentation := some [] }]
    [] [] ⟨[' ']⟩ ⟨[]⟩ (.SimpleWhitespace ⟨[]⟩) ⟨[]⟩

/-- The `Decorator` node `make_decorator` builds on the C5 fixture. -/
def decC5 : Decorator :=
  { decorator := { value := ['f'], lpar := [], rpar := [] },
    leading_lines := [], whitespace_after_at := ⟨[]⟩,
    trailing_whitespace := TrailingWhitespace.default }

/-- C5 witness: on the fixture `"@f\n\ndef g(): pass\n"`, the decorated
definition stores the blank line in `lines_after_decorators` and the
decorator's trailing whitespace is the bare default newline. -/
theorem claim_C5_blank_line_after_decorator_witness :
    (fdC5.with_decorators [decC5]).lines_after_decorators
      = [{ indent := true, whitespace := ⟨[]⟩, comment := none,
           newline := ⟨none, .Real⟩, indentation := some [] }]
    ∧ decC5.trailing_whitespace = TrailingWhitespace.default :=
  ⟨(@claim_C5_blank_line_after_decorator cfgC5 1 0 false 3 "ef g(): pass\n".data
        (by rfl) (by rfl) (by rfl)).1
      defTokC5 nameTokC5 openParenTokC5 closeParenTokC5 colonTokC5 none bodyC5
      fdC5 [decC5] (by rfl) (by rfl),
   (@claim_C5_blank_line_after_decorator cfgC5 1 0 false 3 "ef g(): pass\n".data
        (by rfl) (by rfl) (by rfl)).2
      atTokC5 decNameTokC5 decC5 (by rfl)⟩

end LibCST
